import Mathlib

/-!
Shallow embedding of the smart-money-concepts detectors
(src/smartmoneyconcepts/smc.py) and verification of the frozen claims.

Prices and volumes are modelled as rationals; a pandas NaN cell is
modelled as `none : Option ℚ`.  Output tables are lists aligned with the
input candle positions, option-valued where the source writes NaN.
-/

set_option maxRecDepth 8000

/- Batteries marks the rational-number field operations `@[irreducible]`;
they are restored to the default reducibility so that concrete runs of
the embedded detectors evaluate inside `decide`. -/
attribute [local semireducible] Rat.mul Rat.inv Rat.add Rat.sub

/-- A single OHLCV candle.  The `open` price is called `opn` because
`open` is a Lean keyword. -/
structure Candle where
  opn : ℚ
  high : ℚ
  low : ℚ
  close : ℚ
  volume : ℚ
deriving Repr, DecidableEq

/-- Default candle used for out-of-range list reads (never reached on
in-range indices). -/
def cd0 : Candle := ⟨0, 0, 0, 0, 0⟩

/-- One row of the swing_highs_lows dataframe as consumed by the
downstream detectors: `HighLow` and `Level` cells, NaN = `none`. -/
structure SHL where
  highLow : Option ℚ
  level : Option ℚ
deriving Repr, DecidableEq

def shl0 : SHL := ⟨none, none⟩

/-- Float `<` with NaN semantics: any comparison with NaN is false. -/
def nanLt (a b : Option ℚ) : Bool :=
  match a, b with
  | some x, some y => decide (x < y)
  | _, _ => false

/-- Float `≤` with NaN semantics: any comparison with NaN is false. -/
def nanLe (a b : Option ℚ) : Bool :=
  match a, b with
  | some x, some y => decide (x ≤ y)
  | _, _ => false

/-- Build a list of length `n` from an index function (used to embed
whole-column numpy expressions). -/
def tabulate (n : Nat) (f : Nat → α) : List α := (List.range n).map f

/-- Maximum of a list, seeded from its head (`0` for the empty list,
which is never reached by in-range rolling windows). -/
def listMax : List ℚ → ℚ
  | [] => 0
  | x :: xs => xs.foldl max x

/-- Minimum of a list, seeded from its head. -/
def listMin : List ℚ → ℚ
  | [] => 0
  | x :: xs => xs.foldl min x

/-- The trailing window of `w` values ending at position `i` (inclusive),
truncated at the start of the sequence: pandas
`rolling(window=w, min_periods=1)` membership. -/
def windowVals (xs : List ℚ) (w i : Nat) : List ℚ :=
  (xs.take (i + 1)).drop (i + 1 - w)

/-- `rolling(window=w, min_periods=1).max()` at position `i`. -/
def rollMaxTrunc (xs : List ℚ) (w i : Nat) : ℚ := listMax (windowVals xs w i)

/-- `rolling(window=w, min_periods=1).min()` at position `i`. -/
def rollMinTrunc (xs : List ℚ) (w i : Nat) : ℚ := listMin (windowVals xs w i)

/-- `rolling(window=w).max()` at position `i` (full window required,
NaN = `none` while fewer than `w` values are available). -/
def rollMaxFull (xs : List ℚ) (w i : Nat) : Option ℚ :=
  if 1 ≤ w ∧ w ≤ i + 1 then some (listMax (windowVals xs w i)) else none

/-- `rolling(window=w).min()` at position `i` (full window required). -/
def rollMinFull (xs : List ℚ) (w i : Nat) : Option ℚ :=
  if 1 ≤ w ∧ w ≤ i + 1 then some (listMin (windowVals xs w i)) else none

/-! ## Swing Point Detector (smc.swing_highs_lows)

Each strategy is embedded per position, producing the summed
`HighLow` label (`nan_to_num` keeps 0 for "no swing") and the
`np.where`-chain `Level`. -/

def highs (ohlc : List Candle) : List ℚ := ohlc.map Candle.high

def lows (ohlc : List Candle) : List ℚ := ohlc.map Candle.low

/-- Shared `Level` column of the non-combined strategies:
`np.where(shl == 1, high, np.where(shl == -1, low, nan))`. -/
def levelOf (ohlc : List Candle) (hl : ℚ) (i : Nat) : Option ℚ :=
  if hl = 1 then some ((ohlc.getD i cd0).high)
  else if hl = -1 then some ((ohlc.getD i cd0).low)
  else none

/-- Default strategy label at position `i`:
`(high == rolling(sl, min_periods=1).max() ? 1 : 0) + (low == rolling.min() ? -1 : 0)`. -/
def defaultLabel (ohlc : List Candle) (sl i : Nat) : ℚ :=
  (if (ohlc.getD i cd0).high = rollMaxTrunc (highs ohlc) sl i then 1 else 0)
  + (if (ohlc.getD i cd0).low = rollMinTrunc (lows ohlc) sl i then -1 else 0)

/-- Fractals strategy label at position `i`: the current high must
strictly exceed the two previous highs and the rolling max shifted back
one candle (mirror for lows).  Shifted cells are NaN for the first
positions, and a comparison with NaN is false. -/
def fractalsHighCond (ohlc : List Candle) (sl i : Nat) : Bool :=
  match i with
  | 0 => false
  | 1 => false
  | k + 2 =>
    let hs := highs ohlc
    decide (hs.getD (k + 1) 0 < hs.getD (k + 2) 0) &&
    decide (hs.getD k 0 < hs.getD (k + 2) 0) &&
    (match rollMaxFull hs sl (k + 1) with
     | some m => decide (m < hs.getD (k + 2) 0)
     | none => false)

def fractalsLowCond (ohlc : List Candle) (sl i : Nat) : Bool :=
  match i with
  | 0 => false
  | 1 => false
  | k + 2 =>
    let ls := lows ohlc
    decide (ls.getD (k + 2) 0 < ls.getD (k + 1) 0) &&
    decide (ls.getD (k + 2) 0 < ls.getD k 0) &&
    (match rollMinFull ls sl (k + 1) with
     | some m => decide (ls.getD (k + 2) 0 < m)
     | none => false)

def fractalsLabel (ohlc : List Candle) (sl i : Nat) : ℚ :=
  (if fractalsHighCond ohlc sl i then 1 else 0)
  + (if fractalsLowCond ohlc sl i then -1 else 0)

/-- `ohlc["close"].diff(sl)` at position `i` (NaN for `i < sl`). -/
def momentumVal (ohlc : List Candle) (sl i : Nat) : Option ℚ :=
  if sl ≤ i then some ((ohlc.getD i cd0).close - (ohlc.getD (i - sl) cd0).close)
  else none

/-- Momentum strategy label at position `i`: window extremum (full
window) together with a positive/negative close-to-close change. -/
def momentumHighCond (ohlc : List Candle) (sl i : Nat) : Bool :=
  (match rollMaxFull (highs ohlc) sl i with
   | some m => decide ((ohlc.getD i cd0).high = m)
   | none => false) && nanLt (some 0) (momentumVal ohlc sl i)

def momentumLowCond (ohlc : List Candle) (sl i : Nat) : Bool :=
  (match rollMinFull (lows ohlc) sl i with
   | some m => decide ((ohlc.getD i cd0).low = m)
   | none => false) && nanLt (momentumVal ohlc sl i) (some 0)

def momentumLabel (ohlc : List Candle) (sl i : Nat) : ℚ :=
  (if momentumHighCond ohlc sl i then 1 else 0)
  + (if momentumLowCond ohlc sl i then -1 else 0)

/-- `ewm(span=sl).mean()` at position `i` (pandas default `adjust=True`):
a weighted mean with weights `(1-α)^(i-j)`, `α = 2/(span+1)`. -/
def ewmMean (xs : List ℚ) (span : Nat) (i : Nat) : ℚ :=
  let a : ℚ := 2 / ((span : ℚ) + 1)
  ((List.range (i + 1)).foldl (fun acc j => acc + (1 - a) ^ (i - j) * xs.getD j 0) 0)
  / ((List.range (i + 1)).foldl (fun acc j => acc + (1 - a) ^ (i - j)) 0)

/-- Weighted-rolling-window strategy label at position `i`. -/
def weightedLabel (ohlc : List Candle) (sl i : Nat) : ℚ :=
  (if ewmMean (highs ohlc) sl i ≤ (ohlc.getD i cd0).high then 1 else 0)
  + (if (ohlc.getD i cd0).low ≤ ewmMean (lows ohlc) sl i then -1 else 0)

/-- Combined strategy label at position `i`: the short-term (±1) and
long-term (±2) signals are summed, exactly as in the source. -/
def combinedLabel (ohlc : List Candle) (ssl lsl i : Nat) : ℚ :=
  (if (ohlc.getD i cd0).high = rollMaxTrunc (highs ohlc) ssl i then 1 else 0)
  + (if (ohlc.getD i cd0).low = rollMinTrunc (lows ohlc) ssl i then -1 else 0)
  + (if (ohlc.getD i cd0).high = rollMaxTrunc (highs ohlc) lsl i then 2 else 0)
  + (if (ohlc.getD i cd0).low = rollMinTrunc (lows ohlc) lsl i then -2 else 0)

/-- Combined strategy `Level` column: the four-way `np.where` chain
(1 and 2 map to the high, -1 and -2 to the low, anything else to NaN). -/
def combinedLevel (ohlc : List Candle) (hl : ℚ) (i : Nat) : Option ℚ :=
  if hl = 1 then some ((ohlc.getD i cd0).high)
  else if hl = -1 then some ((ohlc.getD i cd0).low)
  else if hl = 2 then some ((ohlc.getD i cd0).high)
  else if hl = -2 then some ((ohlc.getD i cd0).low)
  else none

/-- smc.swing_highs_lows: dispatch on the evaluator's string value; the
final catch-all of the `match` in the source falls back to the default
strategy.  Output rows are `(HighLow, Level)`. -/
def swing_highs_lows (ev : String) (ohlc : List Candle) (sl ssl lsl : Nat) :
    List (ℚ × Option ℚ) :=
  if ev = "momentum" then
    tabulate ohlc.length fun i =>
      let hl := momentumLabel ohlc sl i; (hl, levelOf ohlc hl i)
  else if ev = "weighted_rolling_window" then
    tabulate ohlc.length fun i =>
      let hl := weightedLabel ohlc sl i; (hl, levelOf ohlc hl i)
  else if ev = "fractals" then
    tabulate ohlc.length fun i =>
      let hl := fractalsLabel ohlc sl i; (hl, levelOf ohlc hl i)
  else if ev = "combined" then
    tabulate ohlc.length fun i =>
      let hl := combinedLabel ohlc ssl lsl i; (hl, combinedLevel ohlc hl i)
  else
    tabulate ohlc.length fun i =>
      let hl := defaultLabel ohlc sl i; (hl, levelOf ohlc hl i)

/-! ## Market Structure Break Detector (smc.bos_choch)

The running lists (`level_order`, `highs_lows_order`, `last_positions`)
are stored newest-first, so the Python accesses `xs[-1]`, `xs[-2]`,
`xs[-3]`, `xs[-4]` become indices 0, 1, 2, 3. -/

structure BCState where
  loRev : List (Option ℚ)
  hlRev : List ℚ
  posRev : List Nat
  bos : List Int
  choch : List Int
  level : List (Option ℚ)
deriving Repr

/-- `highs_lows_order[-4:] == [-1, 1, -1, 1]` (oldest to newest), i.e.
newest-first `[1, -1, 1, -1]`. -/
def patBull (hl : List ℚ) : Bool :=
  match hl with
  | h1 :: h2 :: h3 :: h4 :: _ =>
      decide (h1 = 1) && decide (h2 = -1) && decide (h3 = 1) && decide (h4 = -1)
  | _ => false

/-- `highs_lows_order[-4:] == [1, -1, 1, -1]` (oldest to newest). -/
def patBear (hl : List ℚ) : Bool :=
  match hl with
  | h1 :: h2 :: h3 :: h4 :: _ =>
      decide (h1 = -1) && decide (h2 = 1) && decide (h3 = -1) && decide (h4 = 1)
  | _ => false

/-- `level_order[-4] < level_order[-2] < level_order[-3] < level_order[-1]`. -/
def chainBullBos (lo : List (Option ℚ)) : Bool :=
  match lo with
  | l1 :: l2 :: l3 :: l4 :: _ => nanLt l4 l2 && nanLt l2 l3 && nanLt l3 l1
  | _ => false

/-- `level_order[-4] > level_order[-2] > level_order[-3] > level_order[-1]`. -/
def chainBearBos (lo : List (Option ℚ)) : Bool :=
  match lo with
  | l1 :: l2 :: l3 :: l4 :: _ => nanLt l2 l4 && nanLt l3 l2 && nanLt l1 l3
  | _ => false

/-- `level_order[-1] > level_order[-3] > level_order[-4] > level_order[-2]`. -/
def chainBullChoch (lo : List (Option ℚ)) : Bool :=
  match lo with
  | l1 :: l2 :: l3 :: l4 :: _ => nanLt l3 l1 && nanLt l4 l3 && nanLt l2 l4
  | _ => false

/-- `level_order[-1] < level_order[-3] < level_order[-4] < level_order[-2]`. -/
def chainBearChoch (lo : List (Option ℚ)) : Bool :=
  match lo with
  | l1 :: l2 :: l3 :: l4 :: _ => nanLt l1 l3 && nanLt l3 l4 && nanLt l4 l2
  | _ => false

/-- One iteration of the detection loop at candle position `i`: a
non-NaN `HighLow` appends to the running lists, and once four entries
exist the four classification blocks write (in source order: bullish
BOS, bearish BOS, bullish CHoCH, bearish CHoCH) at the anchor
`last_positions[-2]`, the position list not yet containing `i`. -/
def bcStep (i : Nat) (e : SHL) (s : BCState) : BCState :=
  match e.highLow with
  | none => s
  | some h =>
    let lo := e.level :: s.loRev
    let hl := h :: s.hlRev
    if 4 ≤ lo.length then
      let a := s.posRev.getD 1 0
      let l3 := lo.getD 2 none
      let b1 : Int := if patBull hl && chainBullBos lo then 1 else 0
      let bos1 := s.bos.set a b1
      let lev1 := s.level.set a (if b1 ≠ 0 then l3 else some 0)
      let b2 : Int := if patBear hl && chainBearBos lo then -1 else bos1.getD a 0
      let bos2 := bos1.set a b2
      let lev2 := lev1.set a (if b2 ≠ 0 then l3 else some 0)
      let c1 : Int := if patBull hl && chainBullChoch lo then 1 else 0
      let ch1 := s.choch.set a c1
      let lev3 := lev2.set a (if c1 ≠ 0 then l3 else lev2.getD a (some 0))
      let c2 : Int := if patBear hl && chainBearChoch lo then -1 else ch1.getD a 0
      let ch2 := ch1.set a c2
      let lev4 := lev3.set a (if c2 ≠ 0 then l3 else lev3.getD a (some 0))
      ⟨lo, hl, i :: s.posRev, bos2, ch2, lev4⟩
    else
      ⟨lo, hl, i :: s.posRev, s.bos, s.choch, s.level⟩

def bcGo : Nat → List SHL → BCState → BCState
  | _, [], s => s
  | i, e :: rest, s => bcGo (i + 1) rest (bcStep i e s)

def bcInit (n : Nat) : BCState :=
  ⟨[], [], [], List.replicate n 0, List.replicate n 0, List.replicate n (some 0)⟩

/-- The detection pass of bos_choch (arrays sized by the candle count `n`). -/
def bcDetect (shl : List SHL) (n : Nat) : BCState := bcGo 0 shl (bcInit n)

/-- First index `j` with `start ≤ j < n` satisfying `p`
(`np.argmax(mask) + i + 2` on the sliced mask). -/
def findBreak (p : Nat → Bool) (start n : Nat) : Option Nat :=
  ((List.range n).drop start).find? p

structure RState where
  bos : List Int
  choch : List Int
  level : List (Option ℚ)
  broken : List Nat
deriving Repr

/-- The cleanup sweep run when the event at `i` is confirmed broken at
`j`: every other currently-open event at `k < i` whose own broken index
is `≥ j` has its bos/choch/level zeroed — `broken[k]` is left as is. -/
def resCleanup (i j : Nat) (r : RState) : RState :=
  let cond := fun k =>
    (r.bos.getD k 0 ≠ 0 ∨ r.choch.getD k 0 ≠ 0) ∧ k < i ∧ j ≤ r.broken.getD k 0
  ⟨tabulate r.bos.length fun k => if cond k then 0 else r.bos.getD k 0,
   tabulate r.choch.length fun k => if cond k then 0 else r.choch.getD k 0,
   tabulate r.level.length fun k => if cond k then some 0 else r.level.getD k (some 0),
   r.broken⟩

/-- Recording a confirmed break: `broken[i] = j`, then the cleanup sweep
(no break found leaves the state untouched). -/
def resApply (i : Nat) (r : RState) : Option Nat → RState
  | none => r
  | some j => resCleanup i j { r with broken := r.broken.set i j }

/-- One iteration of the resolution loop at anchor `i`.  The loop's
index set `np.where(bos != 0 | choch != 0)` is the snapshot taken right
after detection (`bos0`, `choch0`); the body reads the current arrays. -/
def resStep (ohlc : List Candle) (cb : Bool) (bos0 choch0 : List Int) (n : Nat)
    (r : RState) (i : Nat) : RState :=
  if bos0.getD i 0 ≠ 0 ∨ choch0.getD i 0 ≠ 0 then
    resApply i r
      (if r.bos.getD i 0 = 1 ∨ r.choch.getD i 0 = 1 then
        findBreak (fun j =>
          nanLt (r.level.getD i (some 0))
            (some (if cb then (ohlc.getD j cd0).close else (ohlc.getD j cd0).high)))
          (i + 2) n
      else if r.bos.getD i 0 = -1 ∨ r.choch.getD i 0 = -1 then
        findBreak (fun j =>
          nanLt (some (if cb then (ohlc.getD j cd0).close else (ohlc.getD j cd0).low))
            (r.level.getD i (some 0)))
          (i + 2) n
      else none)
  else r

def bcResolve (ohlc : List Candle) (cb : Bool) (st : BCState) (n : Nat) : RState :=
  (List.range n).foldl (resStep ohlc cb st.bos st.choch n)
    ⟨st.bos, st.choch, st.level, List.replicate n 0⟩

/-- The final sweep removing events that were never broken
(bos/choch/level all zeroed where `broken == 0`). -/
def bcRemove (r : RState) : RState :=
  let cond := fun k =>
    (r.bos.getD k 0 ≠ 0 ∨ r.choch.getD k 0 ≠ 0) ∧ r.broken.getD k 0 = 0
  ⟨tabulate r.bos.length fun k => if cond k then 0 else r.bos.getD k 0,
   tabulate r.choch.length fun k => if cond k then 0 else r.choch.getD k 0,
   tabulate r.level.length fun k => if cond k then some 0 else r.level.getD k (some 0),
   r.broken⟩

structure BCOut where
  BOS : List (Option Int)
  CHOCH : List (Option Int)
  Level : List (Option ℚ)
  BrokenIndex : List (Option Nat)
deriving Repr

/-- smc.bos_choch: detection pass, resolution pass with cleanup, removal
of unbroken events, and the final replacement of the 0 sentinels by NaN. -/
def bos_choch (ohlc : List Candle) (shl : List SHL) (close_break : Bool) : BCOut :=
  let n := ohlc.length
  let r := bcRemove (bcResolve ohlc close_break (bcDetect shl n) n)
  ⟨tabulate n fun i => if r.bos.getD i 0 ≠ 0 then some (r.bos.getD i 0) else none,
   tabulate n fun i => if r.choch.getD i 0 ≠ 0 then some (r.choch.getD i 0) else none,
   tabulate n fun i =>
     match r.level.getD i (some 0) with
     | some x => if x = 0 then none else some x
     | none => none,
   tabulate n fun i => if r.broken.getD i 0 ≠ 0 then some (r.broken.getD i 0) else none⟩

/-! ## Invariants of bos_choch

At every position at most one of bos/choch is non-zero, and a position
with neither carries the 0.0 level sentinel.  This is preserved by
every pass of the algorithm. -/

def InvBC (bos choch : List Int) (level : List (Option ℚ)) : Prop :=
  ∀ k, (bos.getD k 0 = 0 ∨ choch.getD k 0 = 0) ∧
    ((bos.getD k 0 = 0 ∧ choch.getD k 0 = 0) → level.getD k (some 0) = some 0)

def LenBC (bos choch : List Int) (level : List (Option ℚ)) : Prop :=
  choch.length = bos.length ∧ level.length = bos.length

def LenR (r : RState) : Prop :=
  r.choch.length = r.bos.length ∧ r.level.length = r.bos.length

/-- Six flat candles followed by a close of 5.5: both detected BOS
events (anchors 1 and 3) break at candle 5. -/
def ohlcC2 : List Candle :=
  [⟨0, 1, 0, 1, 1⟩, ⟨0, 1, 0, 1, 1⟩, ⟨0, 1, 0, 1, 1⟩,
   ⟨0, 1, 0, 1, 1⟩, ⟨0, 1, 0, 1, 1⟩, ⟨0, 11/2, 0, 11/2, 1⟩]

/-- Alternating swing points with levels 1,4,2,5,3,6: bullish BOS at
anchors 1 (level 4) and 3 (level 5). -/
def shlC2 : List SHL :=
  [⟨some (-1), some 1⟩, ⟨some 1, some 4⟩, ⟨some (-1), some 2⟩,
   ⟨some 1, some 5⟩, ⟨some (-1), some 3⟩, ⟨some 1, some 6⟩]

/-- Well-formedness of the detection state at scan index `i`: recorded
positions are earlier than `i`, strictly decreasing (newest first), and
in bijection with the recorded levels. -/
def PosWf (i : Nat) (s : BCState) : Prop :=
  (∀ p ∈ s.posRev, p < i) ∧ s.posRev.Pairwise (fun x y => y < x) ∧
  s.posRev.length = s.loRev.length

/-- Four swing points [Low 1, High 4, Low 2, High 5]: the bullish BOS
pattern with chain 1 < 2 < 4 < 5. -/
def shlC5 : List SHL :=
  [⟨some (-1), some 1⟩, ⟨some 1, some 4⟩, ⟨some (-1), some 2⟩, ⟨some 1, some 5⟩]

/-- Rising candles: position 2 is both a short-window (2) and a
long-window (3) rolling-max high, and no rolling-min low. -/
def ohlcC3 : List Candle :=
  [⟨10, 11, 10, 11, 1⟩, ⟨20, 22, 20, 21, 1⟩, ⟨30, 33, 30, 32, 1⟩]

/-- A single candle: its high attains the (truncated) window maximum and
its low the window minimum, so the two signals cancel. -/
def ohlcC4 : List Candle := [⟨5, 7, 3, 6, 1⟩]

/-! ## Order Block Detector (smc.ob) -/

/-- `Series.iloc` with Python negative-index wraparound (reachable with
index -1 via `volume[index - 2]` when a block triggers at candle 1). -/
def ilocQ (xs : List ℚ) (k : Int) : ℚ :=
  if k < 0 then xs.getD (xs.length - (-k).toNat) 0 else xs.getD k.toNat 0

def volumes (ohlc : List Candle) : List ℚ := ohlc.map Candle.volume

/-- numpy int32 assignment of a float: truncation toward zero
(`Int.tdiv` of the reduced numerator by the denominator). -/
def truncQ (q : ℚ) : Int := q.num.tdiv (q.den : Int)

/-- `lowVolume` of update_order_block (direction-dependent). -/
def obLowVolumeF (vol : List ℚ) (index : Nat) (dir : Int) : ℚ :=
  if dir = 1 then ilocQ vol ((index : Int) - 2) else ilocQ vol index

/-- `highVolume` of update_order_block (direction-dependent). -/
def obHighVolumeF (vol : List ℚ) (index : Nat) (dir : Int) : ℚ :=
  if dir = 1 then ilocQ vol index + ilocQ vol ((index : Int) - 1)
  else ilocQ vol ((index : Int) - 2)

/-- The strength percentage written by update_order_block:
`min/max * 100` truncated into the int32 array, with fallback 1 when the
larger aggregate is zero. -/
def obPercentageF (vol : List ℚ) (index : Nat) (dir : Int) : Int :=
  let lv := obLowVolumeF vol index dir
  let hv := obHighVolumeF vol index dir
  if max lv hv ≠ 0 then truncQ (min lv hv / max lv hv * 100) else 1

structure OBState where
  ob : List Int
  top : List ℚ
  bottom : List ℚ
  obVolume : List ℚ
  lowVolume : List ℚ
  highVolume : List ℚ
  percentage : List Int
  breaker : List Bool
  crossed : List Bool
  mitigated : List Nat
deriving Repr, DecidableEq

/-- `find_last_swing`: the largest index `j < index` whose HighLow cell
equals the direction. -/
def find_last_swing (shl : List SHL) (index : Nat) (dir : ℚ) : Option Nat :=
  ((List.range index).filter fun j => (shl.getD j shl0).highLow == some dir).getLast?

/-- The inner scan of update_order_block over `j = 1 .. index-1`,
carrying `(obBtm, obTop, obIndex)`. -/
def obScan (ohlc : List Candle) (dir : Int) :
    List Nat → ℚ × ℚ × Nat → ℚ × ℚ × Nat
  | [], acc => acc
  | j :: js, (obBtm, obTop, obIndex) =>
    let lo := (ohlc.getD j cd0).low
    let hi := (ohlc.getD j cd0).high
    let obBtm1 := if dir = 1 then min lo obBtm else obBtm
    let obTop1 := if dir = 1 then (if obBtm1 = lo then hi else obTop) else max hi obTop
    let obBtm2 := if dir = 1 then obBtm1 else (if obTop1 = hi then lo else obBtm1)
    let obIndex1 :=
      if dir = 1 ∧ obBtm2 = lo then j
      else if dir = -1 ∧ obTop1 = hi then j
      else obIndex
    obScan ohlc dir js (obBtm2, obTop1, obIndex1)

/-- The seeded inner scan of update_order_block: seeds `(obBtm, obTop)`
from candle `index - 1` (swapped for the bearish direction, as in the
source) and scans `j = 1 .. index - 1`. -/
def obScanIndex (ohlc : List Candle) (index : Nat) (dir : Int) : ℚ × ℚ × Nat :=
  obScan ohlc dir (List.range' 1 (index - 1))
    (if dir = 1 then (ohlc.getD (index - 1) cd0).low else (ohlc.getD (index - 1) cd0).high,
     if dir = 1 then (ohlc.getD (index - 1) cd0).high else (ohlc.getD (index - 1) cd0).low,
     index - 1)

/-- update_order_block: seed the zone from candle `index - 1`, run the
inner scan, then write every per-block array at the resulting obIndex.
`breaker` is never written anywhere in smc.ob, so the final guard that
records `mitigated_index` can never fire. -/
def update_order_block (ohlc : List Candle) (index : Nat) (dir : Int)
    (s : OBState) : OBState :=
  let r := obScanIndex ohlc index dir
  let obIndex := r.2.2
  let vol := volumes ohlc
  { s with
    ob := s.ob.set obIndex dir
    top := s.top.set obIndex r.2.1
    bottom := s.bottom.set obIndex r.1
    obVolume := s.obVolume.set obIndex
      (ilocQ vol index + ilocQ vol ((index : Int) - 1) + ilocQ vol ((index : Int) - 2))
    lowVolume := s.lowVolume.set obIndex (obLowVolumeF vol index dir)
    highVolume := s.highVolume.set obIndex (obHighVolumeF vol index dir)
    percentage := s.percentage.set obIndex (obPercentageF vol index dir)
    mitigated :=
      if s.breaker.getD obIndex false ∧ s.mitigated.getD obIndex 0 = 0
      then s.mitigated.set obIndex (index - 1) else s.mitigated }

/-- The bullish half of one main-loop iteration of smc.ob: a close above
the last uncrossed swing high marks it crossed and builds a bullish
block. -/
def obTryBull (ohlc : List Candle) (shl : List SHL) (i : Nat) (s : OBState) : OBState :=
  match find_last_swing shl i 1 with
  | some j =>
    if (ohlc.getD j cd0).high < (ohlc.getD i cd0).close ∧ ¬ s.crossed.getD j false
    then update_order_block ohlc i 1 { s with crossed := s.crossed.set j true }
    else s
  | none => s

/-- The bearish half: a close below the last uncrossed swing low. -/
def obTryBear (ohlc : List Candle) (shl : List SHL) (i : Nat) (s : OBState) : OBState :=
  match find_last_swing shl i (-1) with
  | some j =>
    if (ohlc.getD i cd0).close < (ohlc.getD j cd0).low ∧ ¬ s.crossed.getD j false
    then update_order_block ohlc i (-1) { s with crossed := s.crossed.set j true }
    else s
  | none => s

/-- One iteration of the main loop of smc.ob: the bullish check followed
by the bearish check. -/
def obStep (ohlc : List Candle) (shl : List SHL) (s : OBState) (i : Nat) : OBState :=
  obTryBear ohlc shl i (obTryBull ohlc shl i s)

def obInit (n : Nat) : OBState :=
  ⟨List.replicate n 0, List.replicate n 0, List.replicate n 0, List.replicate n 0,
   List.replicate n 0, List.replicate n 0, List.replicate n 0,
   List.replicate n false, List.replicate n false, List.replicate n 0⟩

structure OBOut where
  OB : List (Option Int)
  Top : List (Option ℚ)
  Bottom : List (Option ℚ)
  OBVolume : List (Option ℚ)
  MitigatedIndex : List (Option Nat)
  Percentage : List (Option Int)
deriving Repr, DecidableEq

/-- smc.ob: the main loop followed by the NaN masking of every column by
the detected-block positions.  The `close_mitigation` flag is accepted
but never read, exactly as in the source. -/
def ob (ohlc : List Candle) (shl : List SHL) (close_mitigation : Bool) : OBOut :=
  let n := ohlc.length
  let s := (List.range n).foldl (obStep ohlc shl) (obInit n)
  ⟨tabulate n fun i => if s.ob.getD i 0 ≠ 0 then some (s.ob.getD i 0) else none,
   tabulate n fun i => if s.ob.getD i 0 ≠ 0 then some (s.top.getD i 0) else none,
   tabulate n fun i => if s.ob.getD i 0 ≠ 0 then some (s.bottom.getD i 0) else none,
   tabulate n fun i => if s.ob.getD i 0 ≠ 0 then some (s.obVolume.getD i 0) else none,
   tabulate n fun i => if s.ob.getD i 0 ≠ 0 then some (s.mitigated.getD i 0) else none,
   tabulate n fun i => if s.ob.getD i 0 ≠ 0 then some (s.percentage.getD i 0) else none⟩

def LenOB (s : OBState) : Prop := s.percentage.length = s.ob.length

/-- Every detected block's percentage cell was written by some trigger
`(idx, dir)` with the update_order_block formula. -/
def InvOB (vol : List ℚ) (s : OBState) : Prop :=
  ∀ k, s.ob.getD k 0 ≠ 0 →
    ∃ idx dir, s.percentage.getD k 0 = obPercentageF vol idx dir

/-- Volumes [1, 30, 40]: a bullish block triggers at candle 2 with
aggregates lowVolume = 1 and highVolume = 70, both nonzero. -/
def ohlcC6 : List Candle := [⟨0, 10, 0, 1, 1⟩, ⟨0, 6, 2, 5, 30⟩, ⟨0, 12, 7, 11, 40⟩]

def shlC6 : List SHL := [⟨some 1, some 10⟩, shl0, shl0]

/-- A bullish order block with zone [2, 6] is detected at position 1;
candle 3 then re-enters the zone with both its wick (low = 4) and its
close (9/2). -/
def ohlcC1 : List Candle :=
  [⟨0, 10, 0, 1, 1⟩, ⟨0, 6, 2, 5, 40⟩, ⟨0, 12, 7, 11, 60⟩, ⟨0, 5, 4, 9/2, 1⟩]

def shlC1 : List SHL := [⟨some 1, some 10⟩, shl0, shl0, shl0]

/-! ## Liquidity Detector (smc.liquidity) -/

/-- `pip_range = (max(high) - min(low)) * range_percent`. -/
def pipRange (ohlc : List Candle) (rp : ℚ) : ℚ :=
  (listMax (highs ohlc) - listMin (lows ohlc)) * rp

def listSum (xs : List ℚ) : ℚ := xs.foldl (· + ·) 0

/-- The break condition of the inner loop of smc.liquidity: the candle's
high reaches the top of the band (bullish pass) or its low reaches the
bottom (bearish pass). -/
def liqSweep (ohlc : List Candle) (d : Int) (rl rh : ℚ) (c : Nat) : Bool :=
  if d = 1 then decide (rh ≤ (ohlc.getD c cd0).high)
  else decide ((ohlc.getD c cd0).low ≤ rl)

/-- The join condition of the inner loop: position `c` is a
not-yet-consumed swing of the same direction whose level lies within the
band; a NaN level never joins because both chained float comparisons
against it are false. -/
def liqJoin (lvl hl : List (Option ℚ)) (d : Int) (rl rh : ℚ) (c : Nat) : Bool :=
  hl.getD c none == some (d : ℚ) &&
  nanLe (some rl) (lvl.getD c none) && nanLe (lvl.getD c none) (some rh)

/-- The inner scan of smc.liquidity over `c = i+1 .. n-1`, carrying the
working HighLow column (joined members are consumed by writing 0), the
collected member levels, and the last joined index; the scan breaks at
the first sweeping candle, and `swept` stays 0 when it runs out. -/
def liqScan (ohlc : List Candle) (lvl : List (Option ℚ)) (d : Int) (rl rh : ℚ) :
    List Nat → List (Option ℚ) → List ℚ → Nat →
    List (Option ℚ) × List ℚ × Nat × Nat
  | [], hl, temp, e => (hl, temp, e, 0)
  | c :: cs, hl, temp, e =>
    let hj := liqJoin lvl hl d rl rh c
    let hl1 := if hj then hl.set c (some 0) else hl
    let temp1 := if hj then temp ++ [(lvl.getD c none).getD 0] else temp
    let e1 := if hj then c else e
    if liqSweep ohlc d rl rh c then (hl1, temp1, e1, c)
    else liqScan ohlc lvl d rl rh cs hl1 temp1 e1

structure LiqState where
  hl : List (Option ℚ)
  liq : List Int
  level : List ℚ
  endi : List Nat
  swept : List Nat
deriving Repr, DecidableEq

/-- One outer iteration of smc.liquidity for direction `d` at seed
position `i`.  A NaN seed level leaves the state unchanged, exactly as
in the source where every band comparison against a NaN bound fails, so
nothing joins, nothing breaks, and the singleton member list suppresses
the write. -/
def liqOuterStep (ohlc : List Candle) (lvl : List (Option ℚ)) (pip : ℚ) (d : Int)
    (s : LiqState) (i : Nat) : LiqState :=
  if s.hl.getD i none == some (d : ℚ) then
    match lvl.getD i none with
    | none => s
    | some sl =>
      let r := liqScan ohlc lvl d (sl - pip) (sl + pip)
        (List.range' (i + 1) (ohlc.length - (i + 1))) s.hl [sl] i
      if 1 < r.2.1.length then
        { hl := r.1,
          liq := s.liq.set i d,
          level := s.level.set i (listSum r.2.1 / (r.2.1.length : ℚ)),
          endi := s.endi.set i r.2.2.1,
          swept := s.swept.set i r.2.2.2 }
      else { s with hl := r.1 }
  else s

structure LiqOut where
  Liquidity : List (Option Int)
  Level : List (Option ℚ)
  End : List (Option Nat)
  Swept : List (Option Nat)
deriving Repr, DecidableEq

/-- smc.liquidity: the bullish pass over every seed position, then the
bearish pass over the same mutated working column, then the NaN masking
of every column by the zone positions. -/
def liquidity (ohlc : List Candle) (shl : List SHL) (rp : ℚ) : LiqOut :=
  let n := ohlc.length
  let lvl := shl.map SHL.level
  let pip := pipRange ohlc rp
  let s0 : LiqState := ⟨shl.map SHL.highLow, List.replicate n 0,
    List.replicate n 0, List.replicate n 0, List.replicate n 0⟩
  let s1 := (List.range n).foldl (liqOuterStep ohlc lvl pip 1) s0
  let s2 := (List.range n).foldl (liqOuterStep ohlc lvl pip (-1)) s1
  ⟨tabulate n fun i => if s2.liq.getD i 0 ≠ 0 then some (s2.liq.getD i 0) else none,
   tabulate n fun i => if s2.liq.getD i 0 ≠ 0 then some (s2.level.getD i 0) else none,
   tabulate n fun i => if s2.liq.getD i 0 ≠ 0 then some (s2.endi.getD i 0) else none,
   tabulate n fun i => if s2.liq.getD i 0 ≠ 0 then some (s2.swept.getD i 0) else none⟩

def LenLiq (s : LiqState) : Prop :=
  s.level.length = s.liq.length ∧ s.endi.length = s.liq.length ∧
  s.swept.length = s.liq.length

/-- Every zone cell of the running state was produced by the inner scan
seeded at its own position from some working column: direction, seed
level, member count guard, mean level, end index and swept index all
come from one scan run. -/
def InvLiq (ohlc : List Candle) (lvl : List (Option ℚ)) (pip : ℚ) (s : LiqState) : Prop :=
  ∀ k, s.liq.getD k 0 ≠ 0 →
    ∃ (d : Int) (sl : ℚ) (hl0 : List (Option ℚ))
      (r : List (Option ℚ) × List ℚ × Nat × Nat),
      r = liqScan ohlc lvl d (sl - pip) (sl + pip)
        (List.range' (k + 1) (ohlc.length - (k + 1))) hl0 [sl] k ∧
      s.liq.getD k 0 = d ∧
      lvl.getD k none = some sl ∧
      1 < r.2.1.length ∧
      s.level.getD k 0 = listSum r.2.1 / (r.2.1.length : ℚ) ∧
      s.endi.getD k 0 = r.2.2.1 ∧
      s.swept.getD k 0 = r.2.2.2

/-- Two swing highs at level 10 within half a pip of each other, then a
candle whose high 12 breaches the band: one bullish zone. -/
def ohlcC7 : List Candle := [⟨0, 10, 0, 0, 0⟩, ⟨0, 10, 1, 0, 0⟩, ⟨0, 12, 1, 0, 0⟩]

def shlC7 : List SHL := [⟨some 1, some 10⟩, ⟨some 1, some 10⟩, shl0]

/-! ## Theorems -/

theorem tabulate_length (n : Nat) (f : Nat → α) : (tabulate n f).length = n := by
  simp [tabulate]

theorem tabulate_getD (n : Nat) (f : Nat → α) (d : α) (i : Nat) (h : i < n) :
    (tabulate n f).getD i d = f i := by
  simp [tabulate, List.getD_eq_getElem?_getD, List.getElem?_map, List.getElem?_range, h]

theorem tabulate_getD_ge (n : Nat) (f : Nat → α) (d : α) (i : Nat) (h : n ≤ i) :
    (tabulate n f).getD i d = d := by
  have : (tabulate n f).length ≤ i := by simpa [tabulate_length] using h
  simp [List.getD_eq_getElem?_getD, List.getElem?_eq_none this]

/-! ## Helper lemmas -/

theorem getD_set (l : List α) (i j : Nat) (v d : α) :
    (l.set i v).getD j d = if i = j ∧ i < l.length then v else l.getD j d := by
  simp only [List.getD_eq_getElem?_getD, List.getElem?_set]
  by_cases hij : i = j
  · subst hij
    by_cases hi : i < l.length
    · simp [hi]
    · simp [hi, List.getElem?_eq_none (Nat.le_of_not_lt hi)]
  · simp [hij]

theorem getD_set' (l : List α) (i j : Nat) (v d : α) :
    (l.set i v)[j]?.getD d = if i = j ∧ i < l.length then v else l[j]?.getD d := by
  have := getD_set l i j v d
  simpa [List.getD_eq_getElem?_getD] using this

theorem getD_replicate (n i : Nat) (a d : α) :
    (List.replicate n a).getD i d = if i < n then a else d := by
  simp only [List.getD_eq_getElem?_getD, List.getElem?_replicate]
  by_cases h : i < n <;> simp [h]

theorem nanLt_asymm (a b : Option ℚ) (h : nanLt a b = true) : nanLt b a = false := by
  cases a <;> cases b <;> simp_all [nanLt]
  exact le_of_lt h

theorem patBull_patBear (hl : List ℚ) (h1 : patBull hl = true) (h2 : patBear hl = true) :
    False := by
  rcases hl with _ | ⟨x1, _ | ⟨x2, _ | ⟨x3, _ | ⟨x4, tl⟩⟩⟩⟩ <;>
    simp [patBull, patBear] at h1 h2
  rw [h1.1.1.1] at h2
  norm_num at h2

theorem chainBull_excl (lo : List (Option ℚ)) (h1 : chainBullBos lo = true)
    (h2 : chainBullChoch lo = true) : False := by
  rcases lo with _ | ⟨a, _ | ⟨b, _ | ⟨c, _ | ⟨d, tl⟩⟩⟩⟩ <;>
    simp [chainBullBos, chainBullChoch] at h1 h2
  have h3 := nanLt_asymm _ _ h1.1.1
  rw [h2.2] at h3
  simp at h3

theorem chainBear_excl (lo : List (Option ℚ)) (h1 : chainBearBos lo = true)
    (h2 : chainBearChoch lo = true) : False := by
  rcases lo with _ | ⟨a, _ | ⟨b, _ | ⟨c, _ | ⟨d, tl⟩⟩⟩⟩ <;>
    simp [chainBearBos, chainBearChoch] at h1 h2
  have h3 := nanLt_asymm _ _ h1.1.1
  rw [h2.2] at h3
  simp at h3

theorem bcStep_len (i : Nat) (e : SHL) (s : BCState)
    (h : LenBC s.bos s.choch s.level) :
    LenBC (bcStep i e s).bos (bcStep i e s).choch (bcStep i e s).level := by
  obtain ⟨h1, h2⟩ := h
  cases he : e.highLow with
  | none => simpa [bcStep, he, LenBC] using ⟨h1, h2⟩
  | some v =>
    simp only [bcStep, he]
    split
    · simp [LenBC, List.length_set, h1, h2]
    · exact ⟨h1, h2⟩

theorem bcStep_inv (i : Nat) (e : SHL) (s : BCState)
    (hlen : LenBC s.bos s.choch s.level)
    (h : InvBC s.bos s.choch s.level) :
    InvBC (bcStep i e s).bos (bcStep i e s).choch (bcStep i e s).level := by
  obtain ⟨hl1, hl2⟩ := hlen
  cases he : e.highLow with
  | none => simpa [bcStep, he] using h
  | some v =>
    simp only [bcStep, he]
    split
    · intro k
      by_cases hak : s.posRev.getD 1 0 = k
      · by_cases hkb : k < s.bos.length
        · have hkc : k < s.choch.length := by rw [hl1]; exact hkb
          have hkv : k < s.level.length := by rw [hl2]; exact hkb
          simp only [getD_set, getD_set', List.length_set, hak, hkb, hkc, hkv, and_true,
            if_true, true_and, if_pos]
          by_cases hP1 : (patBull (v :: s.hlRev) && chainBullBos (e.level :: s.loRev)) = true <;>
          by_cases hP2 : (patBear (v :: s.hlRev) && chainBearBos (e.level :: s.loRev)) = true <;>
          by_cases hP3 : (patBull (v :: s.hlRev) && chainBullChoch (e.level :: s.loRev)) = true <;>
          by_cases hP4 : (patBear (v :: s.hlRev) && chainBearChoch (e.level :: s.loRev)) = true <;>
          first
            | (rw [Bool.and_eq_true] at hP1 hP2; exact (patBull_patBear _ hP1.1 hP2.1).elim)
            | (rw [Bool.and_eq_true] at hP1 hP4; exact (patBull_patBear _ hP1.1 hP4.1).elim)
            | (rw [Bool.and_eq_true] at hP3 hP2; exact (patBull_patBear _ hP3.1 hP2.1).elim)
            | (rw [Bool.and_eq_true] at hP3 hP4; exact (patBull_patBear _ hP3.1 hP4.1).elim)
            | (rw [Bool.and_eq_true] at hP1 hP3; exact (chainBull_excl _ hP1.2 hP3.2).elim)
            | (rw [Bool.and_eq_true] at hP2 hP4; exact (chainBear_excl _ hP2.2 hP4.2).elim)
            | simp [hP1, hP2, hP3, hP4]
        · have hkc : ¬ k < s.choch.length := by rw [hl1]; exact hkb
          have hkv : ¬ k < s.level.length := by rw [hl2]; exact hkb
          rw [List.getD_eq_getElem?_getD] at hak
          have hk := h k
          simp only [List.getD_eq_getElem?_getD] at hk
          simpa [getD_set', List.length_set, hak, hkb, hkc, hkv] using hk
      · rw [List.getD_eq_getElem?_getD] at hak
        have hk := h k
        simp only [List.getD_eq_getElem?_getD] at hk
        simpa [getD_set', List.length_set, hak] using hk
    · exact h

theorem bcGo_len : ∀ (rest : List SHL) (i : Nat) (s : BCState),
    LenBC s.bos s.choch s.level →
    LenBC (bcGo i rest s).bos (bcGo i rest s).choch (bcGo i rest s).level
  | [], _, _, h => h
  | e :: rest, i, s, h => bcGo_len rest (i + 1) (bcStep i e s) (bcStep_len i e s h)

theorem bcGo_inv : ∀ (rest : List SHL) (i : Nat) (s : BCState),
    LenBC s.bos s.choch s.level → InvBC s.bos s.choch s.level →
    InvBC (bcGo i rest s).bos (bcGo i rest s).choch (bcGo i rest s).level
  | [], _, _, _, h => h
  | e :: rest, i, s, hl, h =>
      bcGo_inv rest (i + 1) (bcStep i e s) (bcStep_len i e s hl) (bcStep_inv i e s hl h)

theorem bcInit_len (n : Nat) : LenBC (bcInit n).bos (bcInit n).choch (bcInit n).level := by
  simp [bcInit, LenBC]

theorem bcInit_inv (n : Nat) : InvBC (bcInit n).bos (bcInit n).choch (bcInit n).level := by
  intro k
  simp only [bcInit, getD_replicate]
  constructor
  · left
    split <;> rfl
  · intro _
    split <;> rfl

theorem resCleanup_len (i j : Nat) (r : RState) (h : LenR r) : LenR (resCleanup i j r) := by
  simp [resCleanup, LenR, tabulate_length, h.1, h.2]

theorem resCleanup_inv (i j : Nat) (r : RState) (hlen : LenR r)
    (h : InvBC r.bos r.choch r.level) :
    InvBC (resCleanup i j r).bos (resCleanup i j r).choch (resCleanup i j r).level := by
  intro k
  by_cases hk : k < r.bos.length
  · have hkc : k < r.choch.length := by rw [hlen.1]; exact hk
    have hkv : k < r.level.length := by rw [hlen.2]; exact hk
    simp only [resCleanup, tabulate_getD _ _ _ _ hk, tabulate_getD _ _ _ _ hkc,
      tabulate_getD _ _ _ _ hkv]
    by_cases hcond :
        ((r.bos.getD k 0 ≠ 0 ∨ r.choch.getD k 0 ≠ 0) ∧ k < i ∧ j ≤ r.broken.getD k 0)
    · simp [-List.getD_eq_getElem?_getD, hcond]
    · simpa [-List.getD_eq_getElem?_getD, hcond] using h k
  · have hkc : ¬ k < r.choch.length := by rw [hlen.1]; exact hk
    have hkv : ¬ k < r.level.length := by rw [hlen.2]; exact hk
    simp [-List.getD_eq_getElem?_getD, resCleanup,
      tabulate_getD_ge _ _ _ _ (Nat.le_of_not_lt hk),
      tabulate_getD_ge _ _ _ _ (Nat.le_of_not_lt hkc),
      tabulate_getD_ge _ _ _ _ (Nat.le_of_not_lt hkv)]

theorem resApply_len (i : Nat) (r : RState) (mj : Option Nat) (h : LenR r) :
    LenR (resApply i r mj) := by
  cases mj with
  | none => exact h
  | some j => exact resCleanup_len i j _ h

theorem resApply_inv (i : Nat) (r : RState) (mj : Option Nat) (hlen : LenR r)
    (h : InvBC r.bos r.choch r.level) :
    InvBC (resApply i r mj).bos (resApply i r mj).choch (resApply i r mj).level := by
  cases mj with
  | none => exact h
  | some j => exact resCleanup_inv i j _ hlen h

theorem resStep_len (ohlc : List Candle) (cb : Bool) (bos0 choch0 : List Int) (n : Nat)
    (r : RState) (i : Nat) (h : LenR r) : LenR (resStep ohlc cb bos0 choch0 n r i) := by
  unfold resStep
  split
  · exact resApply_len _ _ _ h
  · exact h

theorem resStep_inv (ohlc : List Candle) (cb : Bool) (bos0 choch0 : List Int) (n : Nat)
    (r : RState) (i : Nat) (hlen : LenR r) (h : InvBC r.bos r.choch r.level) :
    InvBC (resStep ohlc cb bos0 choch0 n r i).bos (resStep ohlc cb bos0 choch0 n r i).choch
      (resStep ohlc cb bos0 choch0 n r i).level := by
  unfold resStep
  split
  · exact resApply_inv _ _ _ hlen h
  · exact h

theorem foldl_resStep_inv (ohlc : List Candle) (cb : Bool) (bos0 choch0 : List Int)
    (n : Nat) : ∀ (is : List Nat) (r : RState), LenR r → InvBC r.bos r.choch r.level →
    LenR (is.foldl (resStep ohlc cb bos0 choch0 n) r) ∧
    InvBC (is.foldl (resStep ohlc cb bos0 choch0 n) r).bos
      (is.foldl (resStep ohlc cb bos0 choch0 n) r).choch
      (is.foldl (resStep ohlc cb bos0 choch0 n) r).level
  | [], r, hl, h => ⟨hl, h⟩
  | i :: is, r, hl, h =>
      foldl_resStep_inv ohlc cb bos0 choch0 n is (resStep ohlc cb bos0 choch0 n r i)
        (resStep_len ohlc cb bos0 choch0 n r i hl)
        (resStep_inv ohlc cb bos0 choch0 n r i hl h)

theorem bcRemove_len (r : RState) (h : LenR r) : LenR (bcRemove r) := by
  simp [bcRemove, LenR, tabulate_length, h.1, h.2]

theorem bcRemove_inv (r : RState) (hlen : LenR r) (h : InvBC r.bos r.choch r.level) :
    InvBC (bcRemove r).bos (bcRemove r).choch (bcRemove r).level := by
  intro k
  by_cases hk : k < r.bos.length
  · have hkc : k < r.choch.length := by rw [hlen.1]; exact hk
    have hkv : k < r.level.length := by rw [hlen.2]; exact hk
    simp only [bcRemove, tabulate_getD _ _ _ _ hk, tabulate_getD _ _ _ _ hkc,
      tabulate_getD _ _ _ _ hkv]
    by_cases hcond :
        ((r.bos.getD k 0 ≠ 0 ∨ r.choch.getD k 0 ≠ 0) ∧ r.broken.getD k 0 = 0)
    · simp [-List.getD_eq_getElem?_getD, hcond]
    · simpa [-List.getD_eq_getElem?_getD, hcond] using h k
  · have hkc : ¬ k < r.choch.length := by rw [hlen.1]; exact hk
    have hkv : ¬ k < r.level.length := by rw [hlen.2]; exact hk
    simp [-List.getD_eq_getElem?_getD, bcRemove,
      tabulate_getD_ge _ _ _ _ (Nat.le_of_not_lt hk),
      tabulate_getD_ge _ _ _ _ (Nat.le_of_not_lt hkc),
      tabulate_getD_ge _ _ _ _ (Nat.le_of_not_lt hkv)]

theorem bcRemove_broken_zero (r : RState) (hlen : LenR r)
    (h : InvBC r.bos r.choch r.level) (k : Nat)
    (hb : (bcRemove r).broken.getD k 0 = 0) :
    (bcRemove r).bos.getD k 0 = 0 ∧ (bcRemove r).choch.getD k 0 = 0 ∧
    (bcRemove r).level.getD k (some 0) = some 0 := by
  have hbr : (bcRemove r).broken = r.broken := rfl
  rw [hbr] at hb
  by_cases hk : k < r.bos.length
  · have hkc : k < r.choch.length := by rw [hlen.1]; exact hk
    have hkv : k < r.level.length := by rw [hlen.2]; exact hk
    simp only [bcRemove, tabulate_getD _ _ _ _ hk, tabulate_getD _ _ _ _ hkc,
      tabulate_getD _ _ _ _ hkv]
    by_cases hcond :
        ((r.bos.getD k 0 ≠ 0 ∨ r.choch.getD k 0 ≠ 0) ∧ r.broken.getD k 0 = 0)
    · simp [-List.getD_eq_getElem?_getD, hcond]
    · have hx : ¬ (r.bos.getD k 0 ≠ 0 ∨ r.choch.getD k 0 ≠ 0) := fun hy => hcond ⟨hy, hb⟩
      push_neg at hx
      simp [-List.getD_eq_getElem?_getD, hcond, hx.1, hx.2, (h k).2 ⟨hx.1, hx.2⟩]
  · have hkc : ¬ k < r.choch.length := by rw [hlen.1]; exact hk
    have hkv : ¬ k < r.level.length := by rw [hlen.2]; exact hk
    simp [-List.getD_eq_getElem?_getD, bcRemove,
      tabulate_getD_ge _ _ _ _ (Nat.le_of_not_lt hk),
      tabulate_getD_ge _ _ _ _ (Nat.le_of_not_lt hkc),
      tabulate_getD_ge _ _ _ _ (Nat.le_of_not_lt hkv)]

theorem bc_run_inv (ohlc : List Candle) (shl : List SHL) (cb : Bool) :
    LenR (bcRemove (bcResolve ohlc cb (bcDetect shl ohlc.length) ohlc.length)) ∧
    InvBC (bcRemove (bcResolve ohlc cb (bcDetect shl ohlc.length) ohlc.length)).bos
      (bcRemove (bcResolve ohlc cb (bcDetect shl ohlc.length) ohlc.length)).choch
      (bcRemove (bcResolve ohlc cb (bcDetect shl ohlc.length) ohlc.length)).level := by
  have h1 := bcGo_len shl 0 (bcInit ohlc.length) (bcInit_len _)
  have h2 := bcGo_inv shl 0 (bcInit ohlc.length) (bcInit_len _) (bcInit_inv _)
  have hl0 : LenR ⟨(bcDetect shl ohlc.length).bos, (bcDetect shl ohlc.length).choch,
      (bcDetect shl ohlc.length).level, List.replicate ohlc.length 0⟩ := ⟨h1.1, h1.2⟩
  have hinv0 : InvBC (bcDetect shl ohlc.length).bos (bcDetect shl ohlc.length).choch
      (bcDetect shl ohlc.length).level := h2
  have h3 := foldl_resStep_inv ohlc cb (bcDetect shl ohlc.length).bos
    (bcDetect shl ohlc.length).choch ohlc.length (List.range ohlc.length) _ hl0 hinv0
  exact ⟨bcRemove_len _ h3.1, bcRemove_inv _ h3.1 h3.2⟩

/-- C10: in the output of bos_choch no position ever carries both a
non-absent BOS and a non-absent CHOCH: the strict inequality chains of
the four classification blocks are pairwise mutually exclusive over the
same 4-point pattern, so the last-write-wins override is unreachable. -/
theorem bos_choch_no_dual_label (ohlc : List Candle) (shl : List SHL) (cb : Bool) (i : Nat) :
    (bos_choch ohlc shl cb).BOS.getD i none = none ∨
    (bos_choch ohlc shl cb).CHOCH.getD i none = none := by
  obtain ⟨hlen, hinv⟩ := bc_run_inv ohlc shl cb
  by_cases hi : i < ohlc.length
  · simp only [bos_choch]
    rw [tabulate_getD _ _ _ _ hi, tabulate_getD _ _ _ _ hi]
    rcases (hinv i).1 with h0 | h0
    · left
      simp [-List.getD_eq_getElem?_getD, h0]
    · right
      simp [-List.getD_eq_getElem?_getD, h0]
  · left
    simp only [bos_choch]
    rw [tabulate_getD_ge _ _ _ _ (Nat.le_of_not_lt hi)]

/-- C2 counterexample: the event at position 1 is discarded by the
cleanup rule (the event at position 3 is confirmed broken at candle 5
and `broken[1] = 5 ≥ 5`), its BOS/CHOCH/Level are cleared, but its
BrokenIndex is NOT cleared: the output row still shows BrokenIndex 5,
refuting "all four columns absent". -/
theorem bos_choch_cleanup_keeps_broken_index_cex :
    (bos_choch ohlcC2 shlC2 true).BOS.getD 1 none = none ∧
    (bos_choch ohlcC2 shlC2 true).CHOCH.getD 1 none = none ∧
    (bos_choch ohlcC2 shlC2 true).Level.getD 1 none = none ∧
    (bos_choch ohlcC2 shlC2 true).BrokenIndex.getD 1 none = some 5 := by
  refine ⟨?_, ?_, ?_, ?_⟩ <;> decide

/-- C2 amended: a position without a surviving event has BOS, CHOCH and
Level absent (but possibly a surviving BrokenIndex from a cleaned-up
event), and a position with BrokenIndex absent hosts no event at all
(unbroken events are removed entirely). -/
theorem bos_choch_absent_event_columns (ohlc : List Candle) (shl : List SHL) (cb : Bool)
    (i : Nat) :
    ((bos_choch ohlc shl cb).BOS.getD i none = none ∧
      (bos_choch ohlc shl cb).CHOCH.getD i none = none →
      (bos_choch ohlc shl cb).Level.getD i none = none) ∧
    ((bos_choch ohlc shl cb).BrokenIndex.getD i none = none →
      (bos_choch ohlc shl cb).BOS.getD i none = none ∧
      (bos_choch ohlc shl cb).CHOCH.getD i none = none ∧
      (bos_choch ohlc shl cb).Level.getD i none = none) := by
  obtain ⟨hlen, hinv⟩ := bc_run_inv ohlc shl cb
  have h1 := bcGo_len shl 0 (bcInit ohlc.length) (bcInit_len _)
  have h2 := bcGo_inv shl 0 (bcInit ohlc.length) (bcInit_len _) (bcInit_inv _)
  have hl0 : LenR ⟨(bcDetect shl ohlc.length).bos, (bcDetect shl ohlc.length).choch,
      (bcDetect shl ohlc.length).level, List.replicate ohlc.length 0⟩ := ⟨h1.1, h1.2⟩
  have h3 := foldl_resStep_inv ohlc cb (bcDetect shl ohlc.length).bos
    (bcDetect shl ohlc.length).choch ohlc.length (List.range ohlc.length) _ hl0 h2
  by_cases hi : i < ohlc.length
  · constructor
    · intro ⟨hB, hC⟩
      simp only [bos_choch] at hB hC ⊢
      rw [tabulate_getD _ _ _ _ hi] at hB hC
      rw [tabulate_getD _ _ _ _ hi]
      have hb0 : (bcRemove (bcResolve ohlc cb (bcDetect shl ohlc.length)
          ohlc.length)).bos.getD i 0 = 0 := by
        by_contra hx
        simp [-List.getD_eq_getElem?_getD, hx] at hB
      have hc0 : (bcRemove (bcResolve ohlc cb (bcDetect shl ohlc.length)
          ohlc.length)).choch.getD i 0 = 0 := by
        by_contra hx
        simp [-List.getD_eq_getElem?_getD, hx] at hC
      have hlev := (hinv i).2 ⟨hb0, hc0⟩
      simp [-List.getD_eq_getElem?_getD, hlev]
    · intro hBr
      simp only [bos_choch] at hBr ⊢
      rw [tabulate_getD _ _ _ _ hi] at hBr
      have hbr0 : (bcRemove (bcResolve ohlc cb (bcDetect shl ohlc.length)
          ohlc.length)).broken.getD i 0 = 0 := by
        by_contra hx
        simp [-List.getD_eq_getElem?_getD, hx] at hBr
      obtain ⟨hz1, hz2, hz3⟩ := bcRemove_broken_zero _ h3.1 h3.2 i hbr0
      have hw1 : (bcRemove (bcResolve ohlc cb (bcDetect shl ohlc.length)
          ohlc.length)).bos.getD i 0 = 0 := hz1
      have hw2 : (bcRemove (bcResolve ohlc cb (bcDetect shl ohlc.length)
          ohlc.length)).choch.getD i 0 = 0 := hz2
      have hw3 : (bcRemove (bcResolve ohlc cb (bcDetect shl ohlc.length)
          ohlc.length)).level.getD i (some 0) = some 0 := hz3
      refine ⟨?_, ?_, ?_⟩ <;> rw [tabulate_getD _ _ _ _ hi]
      · simp [-List.getD_eq_getElem?_getD, hw1]
      · simp [-List.getD_eq_getElem?_getD, hw2]
      · simp [-List.getD_eq_getElem?_getD, hw3]
  · constructor
    · intro _
      simp only [bos_choch]
      rw [tabulate_getD_ge _ _ _ _ (Nat.le_of_not_lt hi)]
    · intro _
      simp only [bos_choch]
      refine ⟨?_, ?_, ?_⟩ <;> rw [tabulate_getD_ge _ _ _ _ (Nat.le_of_not_lt hi)]

/-- Witness for the amended C2 theorem at a concrete input. -/
theorem bos_choch_absent_event_columns_witness :
    (bos_choch ohlcC2 shlC2 true).Level.getD 0 none = none ∧
    (bos_choch ohlcC2 shlC2 true).BOS.getD 0 none = none :=
  ⟨(bos_choch_absent_event_columns ohlcC2 shlC2 true 0).1 ⟨by decide, by decide⟩,
   ((bos_choch_absent_event_columns ohlcC2 shlC2 true 0).2 (by decide)).1⟩

/-! ## Anchor machinery for the detection pass (claim C5) -/

theorem bcStep_posRev_none (i0 : Nat) (e : SHL) (t : BCState) (he : e.highLow = none) :
    bcStep i0 e t = t := by
  simp [bcStep, he]

theorem bcStep_posRev_some (i0 : Nat) (e : SHL) (t : BCState) (v : ℚ)
    (he : e.highLow = some v) : (bcStep i0 e t).posRev = i0 :: t.posRev := by
  simp only [bcStep, he]
  split <;> rfl

theorem bcStep_untouched (i0 : Nat) (e : SHL) (t : BCState) (a : Nat)
    (hne : t.posRev.getD 1 0 ≠ a) :
    (bcStep i0 e t).bos.getD a 0 = t.bos.getD a 0 ∧
    (bcStep i0 e t).level.getD a (some 0) = t.level.getD a (some 0) := by
  cases he : e.highLow with
  | none => rw [bcStep_posRev_none i0 e t he]; exact ⟨rfl, rfl⟩
  | some v =>
    simp only [bcStep, he]
    split
    · constructor <;> simp [-List.getD_eq_getElem?_getD, getD_set, hne]
    · exact ⟨rfl, rfl⟩

theorem bcGo_append (xs ys : List SHL) : ∀ (i : Nat) (s : BCState),
    bcGo i (xs ++ ys) s = bcGo (i + xs.length) ys (bcGo i xs s) := by
  induction xs with
  | nil => intro i s; simp [bcGo]
  | cons e xs ih =>
    intro i s
    show bcGo (i + 1) (xs ++ ys) (bcStep i e s) = _
    rw [ih (i + 1) (bcStep i e s)]
    congr 1
    simp [List.length_cons]
    omega

theorem bcStep_posWf (i : Nat) (e : SHL) (s : BCState) (h : PosWf i s) :
    PosWf (i + 1) (bcStep i e s) := by
  obtain ⟨h1, h2, h3⟩ := h
  cases he : e.highLow with
  | none =>
    rw [bcStep_posRev_none i e s he]
    exact ⟨fun p hp => Nat.lt_succ_of_lt (h1 p hp), h2, h3⟩
  | some v =>
    have hpr := bcStep_posRev_some i e s v he
    have hlo : (bcStep i e s).loRev = e.level :: s.loRev := by
      simp only [bcStep, he]
      split <;> rfl
    refine ⟨?_, ?_, ?_⟩
    · rw [hpr]
      intro p hp
      rcases List.mem_cons.mp hp with rfl | hp
      · exact Nat.lt_succ_self p
      · exact Nat.lt_succ_of_lt (h1 p hp)
    · rw [hpr]
      exact List.Pairwise.cons (fun p hp => h1 p hp) h2
    · rw [hpr, hlo]
      simp [h3]

theorem bcGo_posWf : ∀ (rest : List SHL) (i : Nat) (s : BCState), PosWf i s →
    PosWf (i + rest.length) (bcGo i rest s)
  | [], i, _, h => by simpa only [List.length_nil, Nat.add_zero] using h
  | e :: rest, i, s, h => by
    have hrec := bcGo_posWf rest (i + 1) (bcStep i e s) (bcStep_posWf i e s h)
    have harith : i + 1 + rest.length = i + (e :: rest).length := by
      simp [List.length_cons]
      omega
    rw [harith] at hrec
    exact hrec

theorem bcStep_arrLens (i : Nat) (e : SHL) (s : BCState) :
    (bcStep i e s).bos.length = s.bos.length ∧
    (bcStep i e s).choch.length = s.choch.length ∧
    (bcStep i e s).level.length = s.level.length := by
  cases he : e.highLow with
  | none => rw [bcStep_posRev_none i e s he]; exact ⟨rfl, rfl, rfl⟩
  | some v =>
    simp only [bcStep, he]
    split <;> simp [List.length_set]

theorem bcGo_arrLens : ∀ (rest : List SHL) (i : Nat) (s : BCState),
    (bcGo i rest s).bos.length = s.bos.length ∧
    (bcGo i rest s).choch.length = s.choch.length ∧
    (bcGo i rest s).level.length = s.level.length
  | [], _, _ => ⟨rfl, rfl, rfl⟩
  | e :: rest, i, s => by
    have h1 := bcGo_arrLens rest (i + 1) (bcStep i e s)
    have h2 := bcStep_arrLens i e s
    exact ⟨h1.1.trans h2.1, h1.2.1.trans h2.2.1, h1.2.2.trans h2.2.2⟩

theorem bcGo_preserve : ∀ (rest : List SHL) (i0 : Nat) (t : BCState) (a : Nat),
    2 ≤ t.posRev.length →
    a < t.posRev.getD 1 0 →
    t.posRev.getD 1 0 ≤ t.posRev.getD 0 0 →
    (∀ p ∈ t.posRev, p < i0) →
    (bcGo i0 rest t).bos.getD a 0 = t.bos.getD a 0 ∧
    (bcGo i0 rest t).level.getD a (some 0) = t.level.getD a (some 0) := by
  intro rest
  induction rest with
  | nil => exact fun _ _ _ _ _ _ _ => ⟨rfl, rfl⟩
  | cons e rest ih =>
    intro i0 t a h2 ha hhd hub
    cases he : e.highLow with
    | none =>
      have hstep := bcStep_posRev_none i0 e t he
      have hrec := ih (i0 + 1) t a h2 ha hhd (fun p hp => Nat.lt_succ_of_lt (hub p hp))
      have hgo : bcGo i0 (e :: rest) t = bcGo (i0 + 1) rest (bcStep i0 e t) := rfl
      rw [hgo, hstep]
      exact hrec
    | some v =>
      rcases hq : t.posRev with _ | ⟨q0, ql⟩
      · rw [hq] at h2; simp at h2
      rcases ql with _ | ⟨q1, qtl⟩
      · rw [hq] at h2; simp at h2
      have hq1 : t.posRev.getD 1 0 = q1 := by rw [hq]; rfl
      have hq0 : t.posRev.getD 0 0 = q0 := by rw [hq]; rfl
      rw [hq1] at ha
      rw [hq1, hq0] at hhd
      have hq0lt : q0 < i0 := hub q0 (by rw [hq]; exact List.mem_cons_self q0 _)
      have hpr := bcStep_posRev_some i0 e t v he
      have hstep := bcStep_untouched i0 e t a (by rw [hq1]; omega)
      have h2' : 2 ≤ (bcStep i0 e t).posRev.length := by
        rw [hpr]
        simp
        omega
      have ha' : a < (bcStep i0 e t).posRev.getD 1 0 := by
        rw [hpr, hq]
        show a < q0
        omega
      have hhd' : (bcStep i0 e t).posRev.getD 1 0 ≤ (bcStep i0 e t).posRev.getD 0 0 := by
        rw [hpr, hq]
        show q0 ≤ i0
        omega
      have hub' : ∀ p ∈ (bcStep i0 e t).posRev, p < i0 + 1 := by
        rw [hpr]
        intro p hp
        rcases List.mem_cons.mp hp with rfl | hp
        · exact Nat.lt_succ_self p
        · exact Nat.lt_succ_of_lt (hub p hp)
      have := ih (i0 + 1) (bcStep i0 e t) a h2' ha' hhd' hub'
      exact ⟨this.1.trans hstep.1, this.2.trans hstep.2⟩

theorem bcStep_bullish_bos (i0 : Nat) (e : SHL) (s : BCState)
    (l2 l3 l4 : Option ℚ) (ltl : List (Option ℚ)) (htl : List ℚ)
    (he : e.highLow = some 1)
    (hhl : s.hlRev = -1 :: 1 :: -1 :: htl)
    (hlo : s.loRev = l2 :: l3 :: l4 :: ltl)
    (hc1 : nanLt l4 l2 = true) (hc2 : nanLt l2 l3 = true) (hc3 : nanLt l3 e.level = true)
    (hab : s.posRev.getD 1 0 < s.bos.length)
    (hac : s.posRev.getD 1 0 < s.choch.length)
    (hav : s.posRev.getD 1 0 < s.level.length) :
    (bcStep i0 e s).bos.getD (s.posRev.getD 1 0) 0 = 1 ∧
    (bcStep i0 e s).level.getD (s.posRev.getD 1 0) (some 0) = l3 := by
  have hguard : 4 ≤ (e.level :: s.loRev).length := by
    rw [hlo]
    simp
  have hb1 : patBull (1 :: s.hlRev) = true := by
    rw [hhl]
    simp [patBull]
  have hb2 : patBear (1 :: s.hlRev) = false := by
    rw [hhl]
    simp only [patBear]
    simp only [Bool.and_eq_false_iff, decide_eq_false_iff_not]
    norm_num
  have hcA : chainBullBos (e.level :: s.loRev) = true := by
    rw [hlo]
    simp [chainBullBos, hc1, hc2, hc3]
  have hcC : chainBullChoch (e.level :: s.loRev) = false := by
    rw [hlo]
    simp [chainBullChoch, nanLt_asymm _ _ hc1]
  have hl3 : (e.level :: s.loRev).getD 2 none = l3 := by
    rw [hlo]
    rfl
  simp only [bcStep, he, if_pos hguard]
  constructor <;>
    simp [-List.getD_eq_getElem?_getD, getD_set, List.length_set, hab, hac, hav,
      hb1, hb2, hcA, hcC, hl3]

/-- C5 amended: when appending a swing point brings the running list to
at least 4 entries with labels (oldest to newest) [Low, High, Low, High]
and levels p4 < p2 < p3 < p1, the detection pass assigns bullish BOS 1
with level p3.level at the position of p3 — `last_positions[-2]` is read
before the newest position is appended, so the anchor is the
third-most-recent (second-oldest) of the four points, not the
second-most-recent. -/
theorem bos_choch_bullish_bos_assignment
    (shl pre post : List SHL) (e : SHL) (n : Nat)
    (l2 l3 l4 : Option ℚ) (ltl : List (Option ℚ)) (htl : List ℚ)
    (hsplit : shl = pre ++ e :: post)
    (hn : shl.length ≤ n)
    (he : e.highLow = some 1)
    (hhl : (bcGo 0 pre (bcInit n)).hlRev = -1 :: 1 :: -1 :: htl)
    (hlo : (bcGo 0 pre (bcInit n)).loRev = l2 :: l3 :: l4 :: ltl)
    (hc1 : nanLt l4 l2 = true) (hc2 : nanLt l2 l3 = true)
    (hc3 : nanLt l3 e.level = true) :
    (bcDetect shl n).bos.getD ((bcGo 0 pre (bcInit n)).posRev.getD 1 0) 0 = 1 ∧
    (bcDetect shl n).level.getD ((bcGo 0 pre (bcInit n)).posRev.getD 1 0) (some 0) = l3 := by
  have hwf0 : PosWf 0 (bcInit n) := by
    refine ⟨?_, ?_, ?_⟩ <;> simp [bcInit]
  have hwf := bcGo_posWf pre 0 (bcInit n) hwf0
  rw [Nat.zero_add] at hwf
  obtain ⟨hubs, hsort, hlenpos⟩ := hwf
  have harl := bcGo_arrLens pre 0 (bcInit n)
  have hbn : (bcGo 0 pre (bcInit n)).bos.length = n := by
    rw [harl.1]
    simp [bcInit]
  have hcn : (bcGo 0 pre (bcInit n)).choch.length = n := by
    rw [harl.2.1]
    simp [bcInit]
  have hvn : (bcGo 0 pre (bcInit n)).level.length = n := by
    rw [harl.2.2]
    simp [bcInit]
  have hplen : (bcGo 0 pre (bcInit n)).posRev.length = 3 + ltl.length := by
    rw [hlenpos, hlo]
    simp
    omega
  have hshape : ∃ a b l, (bcGo 0 pre (bcInit n)).posRev = a :: b :: l := by
    rcases hP : (bcGo 0 pre (bcInit n)).posRev with _ | ⟨x, _ | ⟨y, l⟩⟩
    · rw [hP] at hplen
      simp at hplen
      omega
    · rw [hP] at hplen
      simp at hplen
      omega
    · exact ⟨x, y, l, rfl⟩
  obtain ⟨q0, q1, qtl, hq⟩ := hshape
  have hq1 : (bcGo 0 pre (bcInit n)).posRev.getD 1 0 = q1 := by rw [hq]; rfl
  have hq1pre : q1 < pre.length := by
    refine hubs q1 ?_
    rw [hq]
    exact List.mem_cons_of_mem _ (List.mem_cons_self _ _)
  have hq0pre : q0 < pre.length := by
    refine hubs q0 ?_
    rw [hq]
    exact List.mem_cons_self _ _
  have hq10 : q1 < q0 := by
    rw [hq] at hsort
    exact (List.pairwise_cons.mp hsort).1 q1 (List.mem_cons_self _ _)
  have hpren : pre.length ≤ n := by
    rw [hsplit] at hn
    simp [List.length_append] at hn
    omega
  have hq1n : q1 < n := lt_of_lt_of_le hq1pre hpren
  have hstep := bcStep_bullish_bos pre.length e (bcGo 0 pre (bcInit n))
    l2 l3 l4 ltl htl he hhl hlo hc1 hc2 hc3
    (by rw [hq1, hbn]; exact hq1n) (by rw [hq1, hcn]; exact hq1n)
    (by rw [hq1, hvn]; exact hq1n)
  have hpr := bcStep_posRev_some pre.length e (bcGo 0 pre (bcInit n)) 1 he
  have hpersist := bcGo_preserve post (pre.length + 1)
    (bcStep pre.length e (bcGo 0 pre (bcInit n))) q1
    (by rw [hpr, hq]; simp)
    (by rw [hpr, hq]; show q1 < q0; omega)
    (by rw [hpr, hq]; show q0 ≤ pre.length; omega)
    (by
      rw [hpr]
      intro p hp
      rcases List.mem_cons.mp hp with rfl | hp
      · exact Nat.lt_succ_self _
      · exact Nat.lt_succ_of_lt (hubs p hp))
  have hdet : bcDetect shl n =
      bcGo (pre.length + 1) post (bcStep pre.length e (bcGo 0 pre (bcInit n))) := by
    show bcGo 0 shl (bcInit n) = _
    rw [hsplit, bcGo_append pre (e :: post) 0 (bcInit n), Nat.zero_add]
    rfl
  rw [hdet, hq1]
  rw [hq1] at hstep
  exact ⟨hpersist.1.trans hstep.1, hpersist.2.trans hstep.2⟩

/-- C5 counterexample: the four-point bullish BOS conditions hold at the
step processing position 3 (pattern and chain true on the running
lists), yet the second-most-recent point p2 (position 2) is NOT
assigned the event — the code anchors at `last_positions[-2]` before
appending the newest position, i.e. at p3 (position 1). -/
theorem bos_choch_anchor_position_cex :
    patBull ((bcDetect shlC5 4).hlRev) = true ∧
    chainBullBos ((bcDetect shlC5 4).loRev) = true ∧
    (bcDetect shlC5 4).bos.getD 2 0 = 0 ∧
    (bcDetect shlC5 4).bos.getD 1 0 = 1 ∧
    (bcDetect shlC5 4).level.getD 1 (some 0) = some 4 := by
  refine ⟨?_, ?_, ?_, ?_, ?_⟩ <;> decide

/-- Witness for the amended C5 theorem at the concrete input `shlC5`. -/
theorem bos_choch_bullish_bos_assignment_witness :
    (bcDetect shlC5 4).bos.getD 1 0 = 1 ∧
    (bcDetect shlC5 4).level.getD 1 (some 0) = some 4 := by
  have h := bos_choch_bullish_bos_assignment shlC5
    [⟨some (-1), some 1⟩, ⟨some 1, some 4⟩, ⟨some (-1), some 2⟩] []
    ⟨some 1, some 5⟩ 4 (some 2) (some 4) (some 1) [] []
    (by decide) (by decide) (by decide) (by decide) (by decide)
    (by decide) (by decide) (by decide)
  have ha : (bcGo 0 [(⟨some (-1), some 1⟩ : SHL), ⟨some 1, some 4⟩, ⟨some (-1), some 2⟩]
      (bcInit 4)).posRev.getD 1 0 = 1 := by decide
  rw [ha] at h
  exact h

/-! ## Swing strategy label/level consistency (claims C3, C4, C8) -/

theorem pm1_label_level (ohlc : List Candle) (A B : Prop) [Decidable A] [Decidable B]
    (i : Nat) (hl : ℚ)
    (hhl : hl = (if A then (1 : ℚ) else 0) + (if B then -1 else 0)) :
    ((hl = 1 ∨ hl = 2) → levelOf ohlc hl i = some ((ohlc.getD i cd0).high)) ∧
    ((hl = -1 ∨ hl = -2) → levelOf ohlc hl i = some ((ohlc.getD i cd0).low)) ∧
    ((hl = 3 ∨ hl = -3) → levelOf ohlc hl i = none) := by
  subst hhl
  by_cases hA : A <;> by_cases hB : B <;>
    refine ⟨?_, ?_, ?_⟩ <;> intro hv <;> norm_num [levelOf, hA, hB] at hv ⊢

theorem pm2_label_level (ohlc : List Candle) (A B C D : Prop)
    [Decidable A] [Decidable B] [Decidable C] [Decidable D] (i : Nat) (hl : ℚ)
    (hhl : hl = (if A then (1 : ℚ) else 0) + (if B then -1 else 0) +
      (if C then 2 else 0) + (if D then -2 else 0)) :
    ((hl = 1 ∨ hl = 2) → combinedLevel ohlc hl i = some ((ohlc.getD i cd0).high)) ∧
    ((hl = -1 ∨ hl = -2) → combinedLevel ohlc hl i = some ((ohlc.getD i cd0).low)) ∧
    ((hl = 3 ∨ hl = -3) → combinedLevel ohlc hl i = none) := by
  subst hhl
  by_cases hA : A <;> by_cases hB : B <;> by_cases hC : C <;> by_cases hD : D <;>
    refine ⟨?_, ?_, ?_⟩ <;> intro hv <;> norm_num [combinedLevel, hA, hB, hC, hD] at hv ⊢

theorem getD_of_le (l : List α) (i : Nat) (d : α) (h : l.length ≤ i) : l.getD i d = d := by
  simp [List.getD_eq_getElem?_getD, List.getElem?_eq_none h]

theorem swing_highs_lows_length (ev : String) (ohlc : List Candle) (sl ssl lsl : Nat) :
    (swing_highs_lows ev ohlc sl ssl lsl).length = ohlc.length := by
  unfold swing_highs_lows
  split
  · exact tabulate_length _ _
  split
  · exact tabulate_length _ _
  split
  · exact tabulate_length _ _
  split
  · exact tabulate_length _ _
  · exact tabulate_length _ _

/-- C3 amended: for every strategy, a position labeled 1 or 2 carries
Level = that candle's high, a position labeled -1 or -2 carries
Level = that candle's low, and a position labeled ±3 (short-term and
long-term extrema of the same direction firing together in the combined
strategy, whose labels are summed) carries an absent Level. -/
theorem swing_label_level_consistency (ev : String) (ohlc : List Candle)
    (sl ssl lsl i : Nat) :
    ((((swing_highs_lows ev ohlc sl ssl lsl).getD i (0, none)).1 = 1 ∨
      ((swing_highs_lows ev ohlc sl ssl lsl).getD i (0, none)).1 = 2) →
      ((swing_highs_lows ev ohlc sl ssl lsl).getD i (0, none)).2 =
        some ((ohlc.getD i cd0).high)) ∧
    ((((swing_highs_lows ev ohlc sl ssl lsl).getD i (0, none)).1 = -1 ∨
      ((swing_highs_lows ev ohlc sl ssl lsl).getD i (0, none)).1 = -2) →
      ((swing_highs_lows ev ohlc sl ssl lsl).getD i (0, none)).2 =
        some ((ohlc.getD i cd0).low)) ∧
    ((((swing_highs_lows ev ohlc sl ssl lsl).getD i (0, none)).1 = 3 ∨
      ((swing_highs_lows ev ohlc sl ssl lsl).getD i (0, none)).1 = -3) →
      ((swing_highs_lows ev ohlc sl ssl lsl).getD i (0, none)).2 = none) := by
  by_cases hi : i < ohlc.length
  · by_cases hm : ev = "momentum"
    · have hsw : swing_highs_lows ev ohlc sl ssl lsl = tabulate ohlc.length fun j =>
          (momentumLabel ohlc sl j, levelOf ohlc (momentumLabel ohlc sl j) j) := by
        unfold swing_highs_lows
        rw [if_pos hm]
      rw [hsw, tabulate_getD _ _ _ _ hi]
      exact pm1_label_level ohlc _ _ i _ rfl
    · by_cases hw : ev = "weighted_rolling_window"
      · have hsw : swing_highs_lows ev ohlc sl ssl lsl = tabulate ohlc.length fun j =>
            (weightedLabel ohlc sl j, levelOf ohlc (weightedLabel ohlc sl j) j) := by
          unfold swing_highs_lows
          rw [if_neg hm, if_pos hw]
        rw [hsw, tabulate_getD _ _ _ _ hi]
        exact pm1_label_level ohlc _ _ i _ rfl
      · by_cases hf : ev = "fractals"
        · have hsw : swing_highs_lows ev ohlc sl ssl lsl = tabulate ohlc.length fun j =>
              (fractalsLabel ohlc sl j, levelOf ohlc (fractalsLabel ohlc sl j) j) := by
            unfold swing_highs_lows
            rw [if_neg hm, if_neg hw, if_pos hf]
          rw [hsw, tabulate_getD _ _ _ _ hi]
          exact pm1_label_level ohlc _ _ i _ rfl
        · by_cases hc : ev = "combined"
          · have hsw : swing_highs_lows ev ohlc sl ssl lsl = tabulate ohlc.length fun j =>
                (combinedLabel ohlc ssl lsl j,
                 combinedLevel ohlc (combinedLabel ohlc ssl lsl j) j) := by
              unfold swing_highs_lows
              rw [if_neg hm, if_neg hw, if_neg hf, if_pos hc]
            rw [hsw, tabulate_getD _ _ _ _ hi]
            exact pm2_label_level ohlc _ _ _ _ i _ rfl
          · have hsw : swing_highs_lows ev ohlc sl ssl lsl = tabulate ohlc.length fun j =>
                (defaultLabel ohlc sl j, levelOf ohlc (defaultLabel ohlc sl j) j) := by
              unfold swing_highs_lows
              rw [if_neg hm, if_neg hw, if_neg hf, if_neg hc]
            rw [hsw, tabulate_getD _ _ _ _ hi]
            exact pm1_label_level ohlc _ _ i _ rfl
  · have h0 : (swing_highs_lows ev ohlc sl ssl lsl).getD i (0, none) = (0, none) := by
      refine getD_of_le _ _ _ ?_
      rw [swing_highs_lows_length]
      omega
    rw [h0]
    refine ⟨?_, ?_, ?_⟩ <;> intro hv <;> norm_num at hv

/-- C3 counterexample: in the combined strategy a position where both
the short-term and the long-term extremum fire is labeled 1 + 2 = 3
with an absent Level — not the claimed long-term label 2 with the
candle's high as Level. -/
theorem combined_simultaneous_fire_cex :
    (ohlcC3.getD 2 cd0).high = rollMaxTrunc (highs ohlcC3) 2 2 ∧
    (ohlcC3.getD 2 cd0).high = rollMaxTrunc (highs ohlcC3) 3 2 ∧
    (swing_highs_lows "combined" ohlcC3 10 2 3).getD 2 (0, none) = (3, none) := by
  refine ⟨?_, ?_, ?_⟩ <;> decide

/-- Witness for the amended C3 theorem at a concrete input. -/
theorem swing_label_level_consistency_witness :
    ((swing_highs_lows "default" ohlcC3 2 10 50).getD 2 (0, none)).2 = some 33 :=
  (swing_label_level_consistency "default" ohlcC3 2 10 50 2).1 (Or.inl (by decide))

/-- C4 amended: in the default strategy, position `i` is labeled a swing
high (1, Level = high) iff its high attains the trailing-window maximum
AND its low does not attain the trailing-window minimum (when both
conditions hold the +1 and -1 signals sum to 0 and the position is
unlabeled); symmetric for swing lows. -/
theorem default_strategy_characterization (ohlc : List Candle) (sl ssl lsl i : Nat)
    (hsl : 1 ≤ sl) (hi : i < ohlc.length) :
    (((swing_highs_lows "default" ohlc sl ssl lsl).getD i (0, none)).1 = 1 ↔
      ((ohlc.getD i cd0).high = rollMaxTrunc (highs ohlc) sl i ∧
       ¬ (ohlc.getD i cd0).low = rollMinTrunc (lows ohlc) sl i)) ∧
    (((swing_highs_lows "default" ohlc sl ssl lsl).getD i (0, none)).1 = 1 →
      ((swing_highs_lows "default" ohlc sl ssl lsl).getD i (0, none)).2 =
        some ((ohlc.getD i cd0).high)) ∧
    (((swing_highs_lows "default" ohlc sl ssl lsl).getD i (0, none)).1 = -1 ↔
      ((ohlc.getD i cd0).low = rollMinTrunc (lows ohlc) sl i ∧
       ¬ (ohlc.getD i cd0).high = rollMaxTrunc (highs ohlc) sl i)) ∧
    (((swing_highs_lows "default" ohlc sl ssl lsl).getD i (0, none)).1 = -1 →
      ((swing_highs_lows "default" ohlc sl ssl lsl).getD i (0, none)).2 =
        some ((ohlc.getD i cd0).low)) := by
  have hsw : swing_highs_lows "default" ohlc sl ssl lsl = tabulate ohlc.length fun j =>
      (defaultLabel ohlc sl j, levelOf ohlc (defaultLabel ohlc sl j) j) := by
    unfold swing_highs_lows
    rfl
  rw [hsw, tabulate_getD _ _ _ _ hi]
  by_cases hA : (ohlc.getD i cd0).high = rollMaxTrunc (highs ohlc) sl i <;>
  by_cases hB : (ohlc.getD i cd0).low = rollMinTrunc (lows ohlc) sl i <;>
    refine ⟨?_, ?_, ?_, ?_⟩ <;>
      norm_num [-List.getD_eq_getElem?_getD, defaultLabel, levelOf, hA, hB]

/-- C4 counterexample: for a single candle the trailing-window maximum
condition holds at position 0, yet HighLow is 0 (not 1): the claimed
"if and only if" fails whenever the min condition holds simultaneously. -/
theorem default_strategy_iff_cex :
    (ohlcC4.getD 0 cd0).high = rollMaxTrunc (highs ohlcC4) 1 0 ∧
    (swing_highs_lows "default" ohlcC4 1 10 50).getD 0 (0, none) = (0, none) := by
  refine ⟨?_, ?_⟩ <;> decide

/-- Witness for the amended C4 theorem at a concrete input. -/
theorem default_strategy_characterization_witness :
    ((swing_highs_lows "default" ohlcC3 2 10 50).getD 2 (0, none)).1 = 1 ∧
    ((swing_highs_lows "default" ohlcC3 2 10 50).getD 2 (0, none)).2 = some 33 := by
  have h := default_strategy_characterization ohlcC3 2 10 50 2 (by decide) (by decide)
  have h1 : ((swing_highs_lows "default" ohlcC3 2 10 50).getD 2 (0, none)).1 = 1 :=
    h.1.mpr ⟨by decide, by decide⟩
  exact ⟨h1, h.2.1 h1⟩

theorem update_order_block_preserves (ohlc : List Candle) (index : Nat) (dir : Int)
    (s : OBState) (hlen : LenOB s) (h : InvOB (volumes ohlc) s) :
    LenOB (update_order_block ohlc index dir s) ∧
    InvOB (volumes ohlc) (update_order_block ohlc index dir s) := by
  constructor
  · simp only [update_order_block, LenOB, List.length_set]
    exact hlen
  · intro k hk
    simp only [update_order_block] at hk ⊢
    rw [getD_set] at hk
    by_cases hP : ((obScanIndex ohlc index dir).2.2 = k ∧
        (obScanIndex ohlc index dir).2.2 < s.ob.length)
    · refine ⟨index, dir, ?_⟩
      have hP2 : (obScanIndex ohlc index dir).2.2 < s.percentage.length := by
        rw [hlen]
        exact hP.2
      rw [getD_set, if_pos ⟨hP.1, hP2⟩]
    · rw [if_neg hP] at hk
      obtain ⟨idx, dir2, hh⟩ := h k hk
      refine ⟨idx, dir2, ?_⟩
      rw [getD_set, if_neg ?_]
      · exact hh
      · rw [hlen]
        exact hP

theorem obTryBull_preserves (ohlc : List Candle) (shl : List SHL) (i : Nat)
    (s : OBState) (hlen : LenOB s) (h : InvOB (volumes ohlc) s) :
    LenOB (obTryBull ohlc shl i s) ∧ InvOB (volumes ohlc) (obTryBull ohlc shl i s) := by
  unfold obTryBull
  rcases find_last_swing shl i 1 with _ | j
  · exact ⟨hlen, h⟩
  · simp only []
    by_cases hc : ((ohlc.getD j cd0).high < (ohlc.getD i cd0).close ∧
        ¬ s.crossed.getD j false = true)
    · rw [if_pos hc]
      exact update_order_block_preserves ohlc i 1 _ hlen h
    · rw [if_neg hc]
      exact ⟨hlen, h⟩

theorem obTryBear_preserves (ohlc : List Candle) (shl : List SHL) (i : Nat)
    (s : OBState) (hlen : LenOB s) (h : InvOB (volumes ohlc) s) :
    LenOB (obTryBear ohlc shl i s) ∧ InvOB (volumes ohlc) (obTryBear ohlc shl i s) := by
  unfold obTryBear
  rcases find_last_swing shl i (-1) with _ | j
  · exact ⟨hlen, h⟩
  · simp only []
    by_cases hc : ((ohlc.getD i cd0).close < (ohlc.getD j cd0).low ∧
        ¬ s.crossed.getD j false = true)
    · rw [if_pos hc]
      exact update_order_block_preserves ohlc i (-1) _ hlen h
    · rw [if_neg hc]
      exact ⟨hlen, h⟩

theorem obFold_preserves (ohlc : List Candle) (shl : List SHL) :
    ∀ (is : List Nat) (s : OBState), LenOB s → InvOB (volumes ohlc) s →
    LenOB (is.foldl (obStep ohlc shl) s) ∧
    InvOB (volumes ohlc) (is.foldl (obStep ohlc shl) s)
  | [], _, hlen, h => ⟨hlen, h⟩
  | i :: is, s, hlen, h => by
    have h1 := obTryBull_preserves ohlc shl i s hlen h
    have h2 := obTryBear_preserves ohlc shl i _ h1.1 h1.2
    exact obFold_preserves ohlc shl is _ h2.1 h2.2

/-- On a non-negative rational the toward-zero truncation is the floor. -/
theorem truncQ_eq_floor (q : ℚ) (h : 0 ≤ q) : truncQ q = ⌊q⌋ := by
  rw [truncQ, Int.tdiv_eq_ediv (Rat.num_nonneg.mpr h) (Int.ofNat_nonneg _), Rat.floor_def]

theorem truncQ_range (q : ℚ) (h0 : 0 ≤ q) (h1 : q ≤ 100) :
    0 ≤ truncQ q ∧ truncQ q ≤ 100 := by
  rw [truncQ_eq_floor q h0]
  refine ⟨Int.floor_nonneg.mpr h0, ?_⟩
  have h2 : ⌊q⌋ ≤ ⌊(100 : ℚ)⌋ := Int.floor_le_floor h1
  simpa using h2

theorem getD_nonneg (xs : List ℚ) (m : Nat) (hv : ∀ x ∈ xs, 0 ≤ x) : 0 ≤ xs.getD m 0 := by
  by_cases h : m < xs.length
  · rw [List.getD_eq_getElem xs 0 h]
    exact hv _ (List.getElem_mem h)
  · rw [List.getD_eq_default xs 0 (Nat.le_of_not_lt h)]

theorem ilocQ_nonneg (xs : List ℚ) (k : Int) (hv : ∀ x ∈ xs, 0 ≤ x) : 0 ≤ ilocQ xs k := by
  rw [ilocQ]
  by_cases h : k < 0
  · rw [if_pos h]; exact getD_nonneg _ _ hv
  · rw [if_neg h]; exact getD_nonneg _ _ hv

theorem obLowVolumeF_nonneg (vol : List ℚ) (index : Nat) (dir : Int)
    (hv : ∀ x ∈ vol, 0 ≤ x) : 0 ≤ obLowVolumeF vol index dir := by
  rw [obLowVolumeF]
  by_cases h : dir = 1
  · rw [if_pos h]; exact ilocQ_nonneg _ _ hv
  · rw [if_neg h]; exact ilocQ_nonneg _ _ hv

theorem obHighVolumeF_nonneg (vol : List ℚ) (index : Nat) (dir : Int)
    (hv : ∀ x ∈ vol, 0 ≤ x) : 0 ≤ obHighVolumeF vol index dir := by
  rw [obHighVolumeF]
  by_cases h : dir = 1
  · rw [if_pos h]; exact add_nonneg (ilocQ_nonneg _ _ hv) (ilocQ_nonneg _ _ hv)
  · rw [if_neg h]; exact ilocQ_nonneg _ _ hv

/-- With non-negative volumes the strength percentage is in [0, 100]:
when the larger aggregate is nonzero the ratio is in [0, 1], so the
truncated value of ratio * 100 stays in range, and the zero-aggregate
fallback 1 is in range trivially. -/
theorem obPercentageF_range (vol : List ℚ) (index : Nat) (dir : Int)
    (hv : ∀ x ∈ vol, 0 ≤ x) :
    0 ≤ obPercentageF vol index dir ∧ obPercentageF vol index dir ≤ 100 := by
  have hl := obLowVolumeF_nonneg vol index dir hv
  have hh := obHighVolumeF_nonneg vol index dir hv
  rw [obPercentageF]
  by_cases h : max (obLowVolumeF vol index dir) (obHighVolumeF vol index dir) ≠ 0
  · rw [if_pos h]
    have hmaxnn : 0 ≤ max (obLowVolumeF vol index dir) (obHighVolumeF vol index dir) :=
      le_max_of_le_left hl
    have hmaxpos : 0 < max (obLowVolumeF vol index dir) (obHighVolumeF vol index dir) :=
      lt_of_le_of_ne hmaxnn (Ne.symm h)
    have hminnn : 0 ≤ min (obLowVolumeF vol index dir) (obHighVolumeF vol index dir) :=
      le_min hl hh
    have hq0 : 0 ≤ min (obLowVolumeF vol index dir) (obHighVolumeF vol index dir) /
        max (obLowVolumeF vol index dir) (obHighVolumeF vol index dir) * 100 := by
      apply mul_nonneg (div_nonneg hminnn hmaxnn)
      norm_num
    have hq1 : min (obLowVolumeF vol index dir) (obHighVolumeF vol index dir) /
        max (obLowVolumeF vol index dir) (obHighVolumeF vol index dir) * 100 ≤ 100 := by
      have hle : min (obLowVolumeF vol index dir) (obHighVolumeF vol index dir) /
          max (obLowVolumeF vol index dir) (obHighVolumeF vol index dir) ≤ 1 :=
        (div_le_one hmaxpos).mpr min_le_max
      nlinarith
    exact truncQ_range _ hq0 hq1
  · rw [if_neg h]
    exact ⟨by norm_num, by norm_num⟩

/-- C6 (amended): under non-negative volumes, every non-absent Percentage
emitted by ob lies in [0, 100] and was produced by the update_order_block
formula for some trigger candle and direction: the int32 truncation of
100 * min(lowVolume, highVolume) / max(lowVolume, highVolume), with
fallback 1 when the larger aggregate is zero.  Unlike the claim, the
emitted value is a truncation of the exact quotient, and it can equal 1
with both aggregates nonzero. -/
theorem ob_percentage_range_and_formula (ohlc : List Candle) (shl : List SHL)
    (cm : Bool) (hv : ∀ c ∈ ohlc, 0 ≤ c.volume) (k : Nat) (p : Int)
    (hp : (ob ohlc shl cm).Percentage.getD k none = some p) :
    (0 ≤ p ∧ p ≤ 100) ∧ ∃ idx dir, p = obPercentageF (volumes ohlc) idx dir := by
  have hv2 : ∀ x ∈ volumes ohlc, 0 ≤ x := by
    intro x hx
    obtain ⟨c, hc, hcx⟩ := List.mem_map.mp hx
    rw [← hcx]
    exact hv c hc
  have hout : (ob ohlc shl cm).Percentage =
      tabulate ohlc.length fun i =>
        if ((List.range ohlc.length).foldl (obStep ohlc shl) (obInit ohlc.length)).ob.getD i 0 ≠ 0
        then some (((List.range ohlc.length).foldl (obStep ohlc shl)
          (obInit ohlc.length)).percentage.getD i 0)
        else none := rfl
  rw [hout] at hp
  by_cases hk : k < ohlc.length
  · rw [tabulate_getD _ _ _ _ hk] at hp
    by_cases hz : ((List.range ohlc.length).foldl (obStep ohlc shl)
        (obInit ohlc.length)).ob.getD k 0 ≠ 0
    · rw [if_pos hz] at hp
      have hlen0 : LenOB (obInit ohlc.length) := by
        simp [LenOB, obInit]
      have hinv0 : InvOB (volumes ohlc) (obInit ohlc.length) := by
        intro j hj
        exact absurd (by simp [obInit, getD_replicate] :
          ((obInit ohlc.length).ob.getD j 0) = 0) hj
      obtain ⟨idx, dir, hpd⟩ :=
        (obFold_preserves ohlc shl (List.range ohlc.length) (obInit ohlc.length)
          hlen0 hinv0).2 k hz
      have hpe : ((List.range ohlc.length).foldl (obStep ohlc shl)
          (obInit ohlc.length)).percentage.getD k 0 = p := Option.some.inj hp
      rw [hpe] at hpd
      refine ⟨?_, idx, dir, hpd⟩
      rw [hpd]
      exact obPercentageF_range (volumes ohlc) idx dir hv2
    · rw [if_neg hz] at hp
      exact Option.noConfusion hp
  · rw [tabulate_getD_ge _ _ _ _ (Nat.le_of_not_lt hk)] at hp
    exact Option.noConfusion hp

/-- C6 counterexample: both volume aggregates are nonzero (1 and 70) yet
the emitted Percentage is 1 - the int32 truncation of 100/70 - refuting
both the exact-quotient formula and "equals 1 only when both volume
aggregates are zero". -/
theorem ob_percentage_one_with_nonzero_volumes_cex :
    (ob ohlcC6 shlC6 false).Percentage.getD 1 none = some 1 ∧
    obLowVolumeF (volumes ohlcC6) 2 1 = 1 ∧
    obHighVolumeF (volumes ohlcC6) 2 1 = 70 ∧
    ¬ (100 * min (1 : ℚ) 70 / max (1 : ℚ) 70 = 1) := by decide

/-- Witness for the amended C6 theorem at a concrete input. -/
theorem ob_percentage_range_and_formula_witness :
    ((0 : Int) ≤ 1 ∧ (1 : Int) ≤ 100) ∧
    ∃ idx dir, (1 : Int) = obPercentageF (volumes ohlcC6) idx dir :=
  ob_percentage_range_and_formula ohlcC6 shlC6 false (by decide) 1 1 (by decide)

/-- C1 (code bug): the breaker array is never written anywhere in smc.ob,
so the guard that records mitigated_index can never fire.  On this input
a bullish block with zone [2, 6] sits at position 1 and candle 3
re-enters the zone with both its wick (low = 4) and its close (9/2), yet
MitigatedIndex is emitted as 0 - not 3 - under either close_mitigation
mode, and the never-re-entered case is likewise reported as 0, never as
absent. -/
theorem ob_mitigation_never_recorded :
    (ob ohlcC1 shlC1 false).OB.getD 1 none = some 1 ∧
    (ob ohlcC1 shlC1 false).Bottom.getD 1 none = some 2 ∧
    (ob ohlcC1 shlC1 false).Top.getD 1 none = some 6 ∧
    (2 : ℚ) ≤ (ohlcC1.getD 3 cd0).low ∧ (ohlcC1.getD 3 cd0).low ≤ 6 ∧
    (2 : ℚ) ≤ (ohlcC1.getD 3 cd0).close ∧ (ohlcC1.getD 3 cd0).close ≤ 6 ∧
    (ob ohlcC1 shlC1 false).MitigatedIndex.getD 1 none = some 0 ∧
    (ob ohlcC1 shlC1 true).MitigatedIndex.getD 1 none = some 0 := by decide

theorem liqJoin_level (lvl hl : List (Option ℚ)) (d : Int) (rl rh : ℚ) (c : Nat)
    (h : liqJoin lvl hl d rl rh c = true) :
    ∃ v, lvl.getD c none = some v ∧ rl ≤ v ∧ v ≤ rh := by
  rw [liqJoin, Bool.and_eq_true, Bool.and_eq_true] at h
  obtain ⟨⟨h1, h2⟩, h3⟩ := h
  cases hv : lvl.getD c none with
  | none =>
    rw [hv] at h2
    simp [nanLe] at h2
  | some v =>
    rw [hv] at h2 h3
    exact ⟨v, rfl, by simpa [nanLe] using h2, by simpa [nanLe] using h3⟩

theorem liqScan_temp_spec (ohlc : List Candle) (lvl : List (Option ℚ)) (d : Int)
    (rl rh : ℚ) : ∀ (len start : Nat) (hl : List (Option ℚ)) (temp : List ℚ) (e : Nat),
    ∃ ext, (liqScan ohlc lvl d rl rh (List.range' start len) hl temp e).2.1 = temp ++ ext ∧
      ∀ x ∈ ext, rl ≤ x ∧ x ≤ rh
  | 0, start, hl, temp, e => ⟨[], by simp [liqScan], by simp⟩
  | len + 1, start, hl, temp, e => by
    rw [List.range'_succ]
    simp only [liqScan]
    cases hj : liqJoin lvl hl d rl rh start with
    | true =>
      obtain ⟨v, hv, hv1, hv2⟩ := liqJoin_level lvl hl d rl rh start hj
      cases hs : liqSweep ohlc d rl rh start with
      | true =>
        simp only [if_true, if_pos rfl]
        refine ⟨[(lvl.getD start none).getD 0], rfl, ?_⟩
        intro x hx
        rw [List.mem_singleton] at hx
        rw [hx, hv]
        exact ⟨hv1, hv2⟩
      | false =>
        simp only [Bool.false_eq_true, if_false, if_true]
        obtain ⟨ext, hext, hband⟩ := liqScan_temp_spec ohlc lvl d rl rh len (start + 1)
          (hl.set start (some 0)) (temp ++ [(lvl.getD start none).getD 0]) start
        refine ⟨(lvl.getD start none).getD 0 :: ext, ?_, ?_⟩
        · rw [hext, List.append_assoc]
          rfl
        · intro x hx
          rcases List.mem_cons.mp hx with hx | hx
          · rw [hx, hv]
            exact ⟨hv1, hv2⟩
          · exact hband x hx
    | false =>
      simp only [Bool.false_eq_true, if_false]
      cases hs : liqSweep ohlc d rl rh start with
      | true =>
        simp only [if_true, if_pos rfl]
        exact ⟨[], by simp, by simp⟩
      | false =>
        simp only [Bool.false_eq_true, if_false]
        exact liqScan_temp_spec ohlc lvl d rl rh len (start + 1) hl temp e

theorem liqScan_end_spec (ohlc : List Candle) (lvl : List (Option ℚ)) (d : Int)
    (rl rh : ℚ) : ∀ (len start : Nat) (hl : List (Option ℚ)) (temp : List ℚ) (e : Nat),
    ((liqScan ohlc lvl d rl rh (List.range' start len) hl temp e).2.1 = temp ∧
      (liqScan ohlc lvl d rl rh (List.range' start len) hl temp e).2.2.1 = e) ∨
    (start ≤ (liqScan ohlc lvl d rl rh (List.range' start len) hl temp e).2.2.1 ∧
      (liqScan ohlc lvl d rl rh (List.range' start len) hl temp e).2.2.1 < start + len ∧
      ∃ v, lvl.getD (liqScan ohlc lvl d rl rh (List.range' start len) hl temp e).2.2.1 none
          = some v ∧
        (liqScan ohlc lvl d rl rh (List.range' start len) hl temp e).2.1.getLast? = some v ∧
        rl ≤ v ∧ v ≤ rh)
  | 0, start, hl, temp, e => Or.inl ⟨by simp [liqScan], by simp [liqScan]⟩
  | len + 1, start, hl, temp, e => by
    rw [List.range'_succ]
    simp only [liqScan]
    cases hj : liqJoin lvl hl d rl rh start with
    | true =>
      obtain ⟨v, hv, hv1, hv2⟩ := liqJoin_level lvl hl d rl rh start hj
      cases hs : liqSweep ohlc d rl rh start with
      | true =>
        simp only [if_true, if_pos rfl]
        refine Or.inr ⟨Nat.le_refl _, by omega, v, hv, ?_, hv1, hv2⟩
        rw [hv]
        exact List.getLast?_concat temp
      | false =>
        simp only [Bool.false_eq_true, if_false, if_true]
        rcases liqScan_end_spec ohlc lvl d rl rh len (start + 1)
            (hl.set start (some 0)) (temp ++ [(lvl.getD start none).getD 0]) start with
          ⟨ht, he⟩ | ⟨hb1, hb2, v2, hlv, hlast, hv21, hv22⟩
        · refine Or.inr ⟨by omega, by omega, v, by rw [he]; exact hv, ?_, hv1, hv2⟩
          rw [ht, hv]
          exact List.getLast?_concat temp
        · exact Or.inr ⟨by omega, by omega, v2, hlv, hlast, hv21, hv22⟩
    | false =>
      simp only [Bool.false_eq_true, if_false]
      cases hs : liqSweep ohlc d rl rh start with
      | true =>
        simp only [if_true, if_pos rfl]
        exact Or.inl ⟨by simp, by simp⟩
      | false =>
        simp only [Bool.false_eq_true, if_false]
        rcases liqScan_end_spec ohlc lvl d rl rh len (start + 1) hl temp e with
          ⟨ht, he⟩ | ⟨hb1, hb2, v2, hlv, hlast, hv21, hv22⟩
        · exact Or.inl ⟨ht, he⟩
        · exact Or.inr ⟨by omega, by omega, v2, hlv, hlast, hv21, hv22⟩

theorem liqScan_swept_spec (ohlc : List Candle) (lvl : List (Option ℚ)) (d : Int)
    (rl rh : ℚ) : ∀ (len start : Nat) (hl : List (Option ℚ)) (temp : List ℚ) (e : Nat),
    ((liqScan ohlc lvl d rl rh (List.range' start len) hl temp e).2.2.2 = 0 ∧
      ∀ c, start ≤ c → c < start + len → liqSweep ohlc d rl rh c = false) ∨
    (start ≤ (liqScan ohlc lvl d rl rh (List.range' start len) hl temp e).2.2.2 ∧
      (liqScan ohlc lvl d rl rh (List.range' start len) hl temp e).2.2.2 < start + len ∧
      liqSweep ohlc d rl rh
        (liqScan ohlc lvl d rl rh (List.range' start len) hl temp e).2.2.2 = true ∧
      ∀ c, start ≤ c → c < (liqScan ohlc lvl d rl rh (List.range' start len) hl temp e).2.2.2 →
        liqSweep ohlc d rl rh c = false)
  | 0, start, hl, temp, e => Or.inl ⟨by simp [liqScan], by omega⟩
  | len + 1, start, hl, temp, e => by
    rw [List.range'_succ]
    simp only [liqScan]
    cases hs : liqSweep ohlc d rl rh start with
    | true =>
      simp only [if_true, if_pos rfl]
      exact Or.inr ⟨Nat.le_refl _, by omega, hs, by omega⟩
    | false =>
      simp only [Bool.false_eq_true, if_false]
      cases hj : liqJoin lvl hl d rl rh start with
      | true =>
        simp only [if_true]
        rcases liqScan_swept_spec ohlc lvl d rl rh len (start + 1)
            (hl.set start (some 0)) (temp ++ [(lvl.getD start none).getD 0]) start with
          ⟨hz, hall⟩ | ⟨hb1, hb2, hbr, hfirst⟩
        · refine Or.inl ⟨hz, ?_⟩
          intro c hc1 hc2
          rcases Nat.eq_or_lt_of_le hc1 with hceq | hclt
          · rw [← hceq]; exact hs
          · exact hall c hclt (by omega)
        · refine Or.inr ⟨by omega, by omega, hbr, ?_⟩
          intro c hc1 hc2
          rcases Nat.eq_or_lt_of_le hc1 with hceq | hclt
          · rw [← hceq]; exact hs
          · exact hfirst c hclt hc2
      | false =>
        simp only [Bool.false_eq_true, if_false]
        rcases liqScan_swept_spec ohlc lvl d rl rh len (start + 1) hl temp e with
          ⟨hz, hall⟩ | ⟨hb1, hb2, hbr, hfirst⟩
        · refine Or.inl ⟨hz, ?_⟩
          intro c hc1 hc2
          rcases Nat.eq_or_lt_of_le hc1 with hceq | hclt
          · rw [← hceq]; exact hs
          · exact hall c hclt (by omega)
        · refine Or.inr ⟨by omega, by omega, hbr, ?_⟩
          intro c hc1 hc2
          rcases Nat.eq_or_lt_of_le hc1 with hceq | hclt
          · rw [← hceq]; exact hs
          · exact hfirst c hclt hc2

theorem liqOuterStep_preserves (ohlc : List Candle) (lvl : List (Option ℚ)) (pip : ℚ)
    (d : Int) (s : LiqState) (i : Nat) (hlen : LenLiq s) (h : InvLiq ohlc lvl pip s) :
    LenLiq (liqOuterStep ohlc lvl pip d s i) ∧
    InvLiq ohlc lvl pip (liqOuterStep ohlc lvl pip d s i) := by
  rw [liqOuterStep]
  by_cases hg : (s.hl.getD i none == some (d : ℚ)) = true
  · rw [if_pos hg]
    cases hsl : lvl.getD i none with
    | none => exact ⟨hlen, h⟩
    | some sl =>
      simp only []
      by_cases hbig : 1 < (liqScan ohlc lvl d (sl - pip) (sl + pip)
          (List.range' (i + 1) (ohlc.length - (i + 1))) s.hl [sl] i).2.1.length
      · rw [if_pos hbig]
        constructor
        · exact ⟨by simp [List.length_set, hlen.1], by simp [List.length_set, hlen.2.1],
            by simp [List.length_set, hlen.2.2]⟩
        · intro k hk
          simp only [] at hk ⊢
          rw [getD_set] at hk
          by_cases hP : (i = k ∧ i < s.liq.length)
          · refine ⟨d, sl, s.hl,
              liqScan ohlc lvl d (sl - pip) (sl + pip)
                (List.range' (i + 1) (ohlc.length - (i + 1))) s.hl [sl] i,
              by rw [hP.1], ?_, by rw [← hP.1]; exact hsl, ?_, ?_, ?_, ?_⟩
            · rw [getD_set, if_pos hP]
            · exact hbig
            · rw [getD_set, if_pos ⟨hP.1, by rw [hlen.1]; exact hP.2⟩]
            · rw [getD_set, if_pos ⟨hP.1, by rw [hlen.2.1]; exact hP.2⟩]
            · rw [getD_set, if_pos ⟨hP.1, by rw [hlen.2.2]; exact hP.2⟩]
          · rw [if_neg hP] at hk
            obtain ⟨d2, sl2, hl2, r2, hr2, hliq2, hsl2, hbig2, hlev2, hend2, hsw2⟩ := h k hk
            refine ⟨d2, sl2, hl2, r2, hr2, ?_, hsl2, hbig2, ?_, ?_, ?_⟩
            · rw [getD_set, if_neg hP]
              exact hliq2
            · rw [getD_set, if_neg ?_]
              · exact hlev2
              · rw [hlen.1]
                exact hP
            · rw [getD_set, if_neg ?_]
              · exact hend2
              · rw [hlen.2.1]
                exact hP
            · rw [getD_set, if_neg ?_]
              · exact hsw2
              · rw [hlen.2.2]
                exact hP
      · rw [if_neg hbig]
        exact ⟨hlen, h⟩
  · rw [if_neg hg]
    exact ⟨hlen, h⟩

theorem liqFold_preserves (ohlc : List Candle) (lvl : List (Option ℚ)) (pip : ℚ)
    (d : Int) : ∀ (is : List Nat) (s : LiqState), LenLiq s → InvLiq ohlc lvl pip s →
    LenLiq (is.foldl (liqOuterStep ohlc lvl pip d) s) ∧
    InvLiq ohlc lvl pip (is.foldl (liqOuterStep ohlc lvl pip d) s)
  | [], _, hlen, h => ⟨hlen, h⟩
  | i :: is, s, hlen, h => by
    have h1 := liqOuterStep_preserves ohlc lvl pip d s i hlen h
    exact liqFold_preserves ohlc lvl pip d is _ h1.1 h1.2

/-- C7: every zone emitted by liquidity has at least two members (the
seed plus joined in-band swing levels), Level is the arithmetic mean of
the member levels, End is the position of the last joined member (an
in-band swing level, the last member collected), and Swept is the first
candle after the seed whose price breaches the band, 0 when none does. -/
theorem liquidity_zone_properties (ohlc : List Candle) (shl : List SHL) (rp : ℚ)
    (i : Nat) (dq : Int)
    (h : (liquidity ohlc shl rp).Liquidity.getD i none = some dq) :
    ∃ (sl : ℚ) (temp : List ℚ) (e w : Nat),
      (shl.map SHL.level).getD i none = some sl ∧
      2 ≤ temp.length ∧
      (∃ ext, temp = sl :: ext ∧ ∀ x ∈ ext,
        sl - pipRange ohlc rp ≤ x ∧ x ≤ sl + pipRange ohlc rp) ∧
      (liquidity ohlc shl rp).Level.getD i none
        = some (listSum temp / (temp.length : ℚ)) ∧
      (liquidity ohlc shl rp).End.getD i none = some e ∧
      i + 1 ≤ e ∧ e < ohlc.length ∧
      (∃ v, (shl.map SHL.level).getD e none = some v ∧ temp.getLast? = some v ∧
        sl - pipRange ohlc rp ≤ v ∧ v ≤ sl + pipRange ohlc rp) ∧
      (liquidity ohlc shl rp).Swept.getD i none = some w ∧
      ((w = 0 ∧ ∀ c, i + 1 ≤ c → c < ohlc.length →
          liqSweep ohlc dq (sl - pipRange ohlc rp) (sl + pipRange ohlc rp) c = false) ∨
        (i + 1 ≤ w ∧ w < ohlc.length ∧
          liqSweep ohlc dq (sl - pipRange ohlc rp) (sl + pipRange ohlc rp) w = true ∧
          ∀ c, i + 1 ≤ c → c < w →
            liqSweep ohlc dq (sl - pipRange ohlc rp) (sl + pipRange ohlc rp) c = false)) := by
  set lvl := shl.map SHL.level with hlvl
  set pip := pipRange ohlc rp with hpip
  set s0 : LiqState := ⟨shl.map SHL.highLow, List.replicate ohlc.length 0,
    List.replicate ohlc.length 0, List.replicate ohlc.length 0,
    List.replicate ohlc.length 0⟩ with hs0
  set s2 := (List.range ohlc.length).foldl (liqOuterStep ohlc lvl pip (-1))
    ((List.range ohlc.length).foldl (liqOuterStep ohlc lvl pip 1) s0) with hs2
  have hLiq : (liquidity ohlc shl rp).Liquidity = tabulate ohlc.length
      (fun j => if s2.liq.getD j 0 ≠ 0 then some (s2.liq.getD j 0) else none) := rfl
  have hLev : (liquidity ohlc shl rp).Level = tabulate ohlc.length
      (fun j => if s2.liq.getD j 0 ≠ 0 then some (s2.level.getD j 0) else none) := rfl
  have hEnd : (liquidity ohlc shl rp).End = tabulate ohlc.length
      (fun j => if s2.liq.getD j 0 ≠ 0 then some (s2.endi.getD j 0) else none) := rfl
  have hSw : (liquidity ohlc shl rp).Swept = tabulate ohlc.length
      (fun j => if s2.liq.getD j 0 ≠ 0 then some (s2.swept.getD j 0) else none) := rfl
  rw [hLiq] at h
  by_cases hi : i < ohlc.length
  · rw [tabulate_getD _ _ _ _ hi] at h
    by_cases hz : s2.liq.getD i 0 ≠ 0
    · rw [if_pos hz] at h
      have hdq : s2.liq.getD i 0 = dq := Option.some.inj h
      have hlen0 : LenLiq s0 := by
        rw [hs0]
        exact ⟨by simp, by simp, by simp⟩
      have hinv0 : InvLiq ohlc lvl pip s0 := by
        intro k hk
        refine absurd ?_ hk
        rw [hs0]
        simp [getD_replicate]
      have hfold1 := liqFold_preserves ohlc lvl pip 1 (List.range ohlc.length) s0
        hlen0 hinv0
      have hfold2 := liqFold_preserves ohlc lvl pip (-1) (List.range ohlc.length) _
        hfold1.1 hfold1.2
      obtain ⟨d, sl, hl0, r, hr, hliqd, hsl, hbig, hlev, hend, hsw⟩ := hfold2.2 i hz
      have hdd : dq = d := by rw [← hdq, hliqd]
      have htemp0 := liqScan_temp_spec ohlc lvl d (sl - pip) (sl + pip)
        (ohlc.length - (i + 1)) (i + 1) hl0 [sl] i
      have hendspec := liqScan_end_spec ohlc lvl d (sl - pip) (sl + pip)
        (ohlc.length - (i + 1)) (i + 1) hl0 [sl] i
      have hswspec := liqScan_swept_spec ohlc lvl d (sl - pip) (sl + pip)
        (ohlc.length - (i + 1)) (i + 1) hl0 [sl] i
      rw [← hr] at htemp0 hendspec hswspec
      obtain ⟨ext, hext, hband⟩ := htemp0
      refine ⟨sl, r.2.1, r.2.2.1, r.2.2.2, hsl, hbig, ⟨ext, hext, ?_⟩, ?_, ?_, ?_, ?_, ?_, ?_, ?_⟩
      · exact hband
      · rw [hLev, tabulate_getD _ _ _ _ hi, if_pos hz, hlev]
      · rw [hEnd, tabulate_getD _ _ _ _ hi, if_pos hz, hend]
      · rcases hendspec with ⟨ht, _⟩ | ⟨hb1, _, _⟩
        · rw [ht] at hbig
          simp at hbig
        · exact hb1
      · rcases hendspec with ⟨ht, _⟩ | ⟨_, hb2, _⟩
        · rw [ht] at hbig
          simp at hbig
        · omega
      · rcases hendspec with ⟨ht, _⟩ | ⟨_, _, v, hv1, hv2, hv3, hv4⟩
        · rw [ht] at hbig
          simp at hbig
        · exact ⟨v, hv1, hv2, hv3, hv4⟩
      · rw [hSw, tabulate_getD _ _ _ _ hi, if_pos hz, hsw]
      · rw [hdd]
        rcases hswspec with ⟨hz2, hall⟩ | ⟨hb1, hb2, hbr, hfirst⟩
        · refine Or.inl ⟨hz2, ?_⟩
          intro c hc1 hc2
          exact hall c hc1 (by omega)
        · refine Or.inr ⟨hb1, by omega, hbr, hfirst⟩
    · rw [if_neg hz] at h
      exact Option.noConfusion h
  · rw [tabulate_getD_ge _ _ _ _ (Nat.le_of_not_lt hi)] at h
    exact Option.noConfusion h

/-- Witness for the C7 theorem at a concrete input. -/
theorem liquidity_zone_properties_witness :
    ∃ (sl : ℚ) (temp : List ℚ) (e w : Nat),
      (shlC7.map SHL.level).getD 0 none = some sl ∧
      2 ≤ temp.length ∧
      (∃ ext, temp = sl :: ext ∧ ∀ x ∈ ext,
        sl - pipRange ohlcC7 (1/24) ≤ x ∧ x ≤ sl + pipRange ohlcC7 (1/24)) ∧
      (liquidity ohlcC7 shlC7 (1/24)).Level.getD 0 none
        = some (listSum temp / (temp.length : ℚ)) ∧
      (liquidity ohlcC7 shlC7 (1/24)).End.getD 0 none = some e ∧
      0 + 1 ≤ e ∧ e < ohlcC7.length ∧
      (∃ v, (shlC7.map SHL.level).getD e none = some v ∧ temp.getLast? = some v ∧
        sl - pipRange ohlcC7 (1/24) ≤ v ∧ v ≤ sl + pipRange ohlcC7 (1/24)) ∧
      (liquidity ohlcC7 shlC7 (1/24)).Swept.getD 0 none = some w ∧
      ((w = 0 ∧ ∀ c, 0 + 1 ≤ c → c < ohlcC7.length →
          liqSweep ohlcC7 1 (sl - pipRange ohlcC7 (1/24))
            (sl + pipRange ohlcC7 (1/24)) c = false) ∨
        (0 + 1 ≤ w ∧ w < ohlcC7.length ∧
          liqSweep ohlcC7 1 (sl - pipRange ohlcC7 (1/24))
            (sl + pipRange ohlcC7 (1/24)) w = true ∧
          ∀ c, 0 + 1 ≤ c → c < w →
            liqSweep ohlcC7 1 (sl - pipRange ohlcC7 (1/24))
              (sl + pipRange ohlcC7 (1/24)) c = false)) :=
  liquidity_zone_properties ohlcC7 shlC7 (1/24) 0 1 (by decide)

/-- C8 (amended): configuration errors are silently ignored, not raised:
an unrecognized strategy name makes swing_highs_lows fall back to the
default strategy (the match statement's wildcard arm), and liquidity
accepts any range_percent, including non-positive values, producing a
full-length output table. -/
theorem config_errors_silently_ignored (ohlc : List Candle) (shl : List SHL)
    (ev : String) (sl ssl lsl : Nat) (rp : ℚ)
    (h1 : ev ≠ "momentum") (h2 : ev ≠ "weighted_rolling_window")
    (h3 : ev ≠ "fractals") (h4 : ev ≠ "combined") :
    swing_highs_lows ev ohlc sl ssl lsl = swing_highs_lows "default" ohlc sl ssl lsl ∧
    (liquidity ohlc shl rp).Liquidity.length = ohlc.length := by
  constructor
  · rw [swing_highs_lows, if_neg h1, if_neg h2, if_neg h3, if_neg h4, swing_highs_lows,
      if_neg (by decide : ¬ ("default" : String) = "momentum"),
      if_neg (by decide : ¬ ("default" : String) = "weighted_rolling_window"),
      if_neg (by decide : ¬ ("default" : String) = "fractals"),
      if_neg (by decide : ¬ ("default" : String) = "combined")]
  · have hL : (liquidity ohlc shl rp).Liquidity = tabulate ohlc.length
        (fun j => if ((List.range ohlc.length).foldl
            (liqOuterStep ohlc (shl.map SHL.level) (pipRange ohlc rp) (-1))
            ((List.range ohlc.length).foldl
              (liqOuterStep ohlc (shl.map SHL.level) (pipRange ohlc rp) 1)
              ⟨shl.map SHL.highLow, List.replicate ohlc.length 0,
               List.replicate ohlc.length 0, List.replicate ohlc.length 0,
               List.replicate ohlc.length 0⟩)).liq.getD j 0 ≠ 0
          then some (((List.range ohlc.length).foldl
            (liqOuterStep ohlc (shl.map SHL.level) (pipRange ohlc rp) (-1))
            ((List.range ohlc.length).foldl
              (liqOuterStep ohlc (shl.map SHL.level) (pipRange ohlc rp) 1)
              ⟨shl.map SHL.highLow, List.replicate ohlc.length 0,
               List.replicate ohlc.length 0, List.replicate ohlc.length 0,
               List.replicate ohlc.length 0⟩)).liq.getD j 0)
          else none) := rfl
    rw [hL, tabulate_length]

/-- C8 counterexample: the strategy name "bogus" is not one of the five
recognized names, yet swing_highs_lows raises nothing and returns the
default strategy's (nonempty) output, and liquidity with the
non-positive range_percent -1 likewise returns a full-length table. -/
theorem unrecognized_strategy_no_error_cex :
    swing_highs_lows "bogus" ohlcC3 2 1 2 = swing_highs_lows "default" ohlcC3 2 1 2 ∧
    swing_highs_lows "bogus" ohlcC3 2 1 2 ≠ [] ∧
    (liquidity ohlcC3 (List.replicate 3 shl0) (-1)).Liquidity.length = 3 := by decide

/-- Witness for the amended C8 theorem at a concrete input. -/
theorem config_errors_silently_ignored_witness :
    swing_highs_lows "sessions" ohlcC4 1 1 1 = swing_highs_lows "default" ohlcC4 1 1 1 ∧
    (liquidity ohlcC4 [shl0] 0).Liquidity.length = ohlcC4.length :=
  config_errors_silently_ignored ohlcC4 [shl0] "sessions" 1 1 1 0
    (by decide) (by decide) (by decide) (by decide)
